import Mathlib

/-!
# Verification of the HWMX dense-matrix determinant engine

Shallow embedding of `src/src/determinant.cpp` (namespace `LinearAlgebra`):
the `Matrix` storage class and `DeterminantCalculator::calculateDeterminant`
(LU decomposition with partial pivoting), together with the file-based
loader `MatrixReader::readFromFile`.

Modelling conventions:
* `long double` values are modelled as exact rationals `ℚ`; the literal
  `1e-15L` becomes the rational `1 / 10^15` and `std::fabsl` becomes `|·|`.
* The flat owned buffer `std::unique_ptr<long double[]>` of length
  `size * size` is a `List ℚ`; `Matrix::index(i,j) = i*size + j` is kept.
  Note that `std::make_unique<long double[]>(n*n)` value-initializes the
  array (`new long double[n*n]()`), i.e. the buffer is zero-filled.
* The in-place mutation of the matrix is explicit state passing: every
  mutating operation returns the new `Mat`, and `calculateDeterminant`
  returns the pair (result, final matrix state).
* Ownership/aliasing behaviour (copy constructor vs. move) is modelled
  separately with an explicit heap of numbered buffers.
-/

namespace HWMX

/-- The scalar type of the engine: `long double`, idealised as `ℚ`. -/
abbrev Scalar := ℚ

/-- `Matrix` (determinant.cpp lines 13-81): dimension plus the flat
row-major buffer `data` of intended length `size * size`. -/
structure Mat where
  size : ℕ
  data : List Scalar
deriving DecidableEq, Repr

/-- `Matrix::index` (line 13): `i * size + j`. -/
def Mat.index (m : Mat) (i j : ℕ) : ℕ := i * m.size + j

/-- `Matrix::operator()(i,j) const` (line 59): read `data[index(i,j)]`.
Out-of-range reads are undefined behaviour in C++; the model returns 0. -/
def Mat.get (m : Mat) (i j : ℕ) : Scalar := m.data.getD (m.index i j) 0

/-- `Matrix::operator()(i,j)` used as an lvalue (line 54): write
`data[index(i,j)]`. -/
def Mat.set (m : Mat) (i j : ℕ) (v : Scalar) : Mat :=
  ⟨m.size, m.data.set (m.index i j) v⟩

/-- `Matrix::Matrix(size_t n)` (line 18): `make_unique<long double[]>(n*n)`
value-initializes, so the fresh buffer holds `n*n` zeros. -/
def Mat.construct (n : ℕ) : Mat := ⟨n, List.replicate (n * n) 0⟩

/-- `Matrix::getSize` (line 64). -/
def Mat.getSize (m : Mat) : ℕ := m.size

/-- `Matrix::swapRows` (lines 69-76): no-op when `i == j`, otherwise swap
elements `(i,k)` and `(j,k)` for `k = 0 .. size-1`. -/
def Mat.swapRows (m : Mat) (i j : ℕ) : Mat :=
  if i = j then m
  else
    (List.range m.size).foldl
      (fun acc k =>
        let a := acc.get i k
        let b := acc.get j k
        (acc.set i k b).set j k a)
      m

/-- `data.length == size * size`: the Matrix buffer invariant (§3). -/
def Mat.wf (m : Mat) : Prop := m.data.length = m.size * m.size

instance (m : Mat) : Decidable m.wf := by unfold Mat.wf; infer_instance

/-- Division on `ℚ`. `Rat.inv` (hence `·/·`) is irreducible in this
toolchain, so the embedding uses this kernel-reducible equivalent; the
lemma `qdiv_eq_div` proves it IS rational division. -/
def qdiv (a b : Scalar) : Scalar := Rat.divInt (a.num * b.den) (a.den * b.num)

theorem qdiv_eq_div (a b : Scalar) : qdiv a b = a / b := by
  unfold qdiv
  rw [Rat.divInt_eq_div]
  rcases eq_or_ne b 0 with hb | hb
  · subst hb
    simp
  · have hbnum : (b.num : ℚ) ≠ 0 := by
      exact_mod_cast Rat.num_ne_zero.mpr hb
    have hbden : (b.den : ℚ) ≠ 0 := by
      exact_mod_cast b.den_nz
    have haden : (a.den : ℚ) ≠ 0 := by
      exact_mod_cast a.den_nz
    have ha' : (a.num : ℚ) = a * a.den := (div_eq_iff haden).mp (Rat.num_div_den a)
    have hb' : (b.num : ℚ) = b * b.den := (div_eq_iff hbden).mp (Rat.num_div_den b)
    push_cast
    rw [div_eq_div_iff (mul_ne_zero haden hbnum) hb, ha', hb']
    ring

/-- Multiplication on `ℚ`, kernel-reducible; equals `·*·` (`qmul_eq_mul`). -/
def qmul (a b : Scalar) : Scalar := Rat.divInt (a.num * b.num) (a.den * b.den)

/-- Subtraction on `ℚ`, kernel-reducible; equals `·-·` (`qsub_eq_sub`). -/
def qsub (a b : Scalar) : Scalar := Rat.divInt (a.num * b.den - a.den * b.num) (a.den * b.den)

theorem qmul_eq_mul (a b : Scalar) : qmul a b = a * b := by
  unfold qmul
  rw [Rat.divInt_eq_div]
  have haden : (a.den : ℚ) ≠ 0 := by exact_mod_cast a.den_nz
  have hbden : (b.den : ℚ) ≠ 0 := by exact_mod_cast b.den_nz
  conv_rhs => rw [← Rat.num_div_den a, ← Rat.num_div_den b]
  rw [div_mul_div_comm]
  push_cast
  rfl

theorem qsub_eq_sub (a b : Scalar) : qsub a b = a - b := by
  unfold qsub
  rw [Rat.divInt_eq_div]
  have haden : (a.den : ℚ) ≠ 0 := by exact_mod_cast a.den_nz
  have hbden : (b.den : ℚ) ≠ 0 := by exact_mod_cast b.den_nz
  conv_rhs => rw [← Rat.num_div_den a, ← Rat.num_div_den b]
  rw [div_sub_div _ _ haden hbden]
  push_cast
  rfl

/-- The singularity threshold `1e-15L` (line 127), idealised exactly:
`epsilon = 1 / 10 ^ 15` (lemma `epsilon_eq`; stated through `Rat.divInt`
only so that it is kernel-reducible). -/
def epsilon : Scalar := Rat.divInt 1 (10 ^ 15)

theorem epsilon_eq : epsilon = 1 / 10 ^ 15 := by
  unfold epsilon
  rw [Rat.divInt_eq_div]
  norm_num

/-- Pivot search (lines 102-114): scan rows `k+1 .. n-1` of column `k`
keeping the running maximum `max_val` (initially `fabsl(matrix(k,k))`)
and its first row `pivot_row` (initially `k`), with a strict `>` test. -/
def pivF (m : Mat) (k : ℕ) : ℕ × Scalar → ℕ → ℕ × Scalar :=
  fun p i =>
    let val := |m.get i k|
    if val > p.2 then (i, val) else p

def findPivot (m : Mat) (k : ℕ) : ℕ × Scalar :=
  (List.range' (k + 1) (m.size - (k + 1))).foldl (pivF m k) (k, |m.get k k|)

/-- Inner update of the elimination loop (line 142):
`matrix(i,j) -= factor * matrix(k,j)`. -/
def elimRowF (i k : ℕ) (factor : Scalar) : Mat → ℕ → Mat :=
  fun acc2 j => acc2.set i j (qsub (acc2.get i j) (qmul factor (acc2.get k j)))

/-- One row `i` of the elimination loop (lines 135-144): store the
multiplier `factor = matrix(i,k) / pivot_val` into `matrix(i,k)`, then
update columns `j = k+1 .. n-1`. -/
def elimOuterF (k : ℕ) (pivot_val : Scalar) : Mat → ℕ → Mat :=
  fun acc i =>
    let factor := qdiv (acc.get i k) pivot_val
    let acc1 := acc.set i k factor
    (List.range' (k + 1) (acc1.size - (k + 1))).foldl (elimRowF i k factor) acc1

/-- Elimination below the diagonal (lines 134-144): for each row
`i = k+1 .. n-1`, store `factor = matrix(i,k) / pivot_val` into
`matrix(i,k)`, then subtract `factor * matrix(k,j)` from `matrix(i,j)`
for `j = k+1 .. n-1`. -/
def eliminate (m : Mat) (k : ℕ) (pivot_val : Scalar) : Mat :=
  (List.range' (k + 1) (m.size - (k + 1))).foldl (elimOuterF k pivot_val) m

/-- State of the main elimination loop (lines 100-145): either still
`running` with the current matrix, the pivot bookkeeping array (lines
90-94, 120), the accumulators `det` and `sign`, or `done` after the
early `return 0.0` of line 129 (with the matrix as it stood there). -/
inductive RunState where
  | running (m : Mat) (piv : List ℕ) (det : Scalar) (sign : ℤ)
  | done (m : Mat)
deriving DecidableEq, Repr

/-- One iteration `k` of the main loop (lines 100-145). -/
def step (s : RunState) (k : ℕ) : RunState :=
  match s with
  | .done m => .done m
  | .running m piv det sign =>
    let pr := (findPivot m k).1
    let m1 := if pr ≠ k then m.swapRows k pr else m
    let piv1 := if pr ≠ k then (piv.set k (piv.getD pr 0)).set pr (piv.getD k 0) else piv
    let sign1 := if pr ≠ k then -sign else sign
    let pivot_val := m1.get k k
    if |pivot_val| < epsilon then .done m1
    else .running (eliminate m1 k pivot_val) piv1 (qmul det pivot_val) sign1

/-- The whole main loop, `k = 0 .. n-1`. -/
def runFold (m : Mat) : RunState :=
  (List.range m.size).foldl step (.running m (List.range m.size) 1 1)

/-- The loop did not take the early `return 0.0` of line 129. -/
def completes (m : Mat) : Prop :=
  ∃ m' piv det sign, runFold m = .running m' piv det sign

/-- Boolean version of `completes` (for evaluation). -/
def completesB (m : Mat) : Bool :=
  match runFold m with
  | .running _ _ _ _ => true
  | .done _ => false

theorem completes_iff (m : Mat) : completes m ↔ completesB m = true := by
  unfold completes completesB
  cases h : runFold m with
  | running m' piv det sign =>
    constructor
    · intro _
      rfl
    · intro _
      exact ⟨m', piv, det, sign, rfl⟩
  | done m' =>
    constructor
    · rintro ⟨a, b, c, d, hc⟩
      cases hc
    · intro hc
      cases hc

instance (m : Mat) : Decidable (completes m) :=
  decidable_of_iff _ (completes_iff m).symm

/-- `DeterminantCalculator::calculateDeterminant` (lines 83-148),
returning the result together with the final state of the caller's
matrix (which the C++ function mutates in place). -/
def calculateDeterminant (m : Mat) : Scalar × Mat :=
  if m.size = 0 then (1, m)
  else if m.size = 1 then (m.get 0 0, m)
  else
    match runFold m with
    | .running m' _ det sign => (qmul det (sign : Scalar), m')
    | .done m' => (0, m')

/-! ## Generic list helpers -/

theorem range'_concat1 (s n : ℕ) :
    List.range' s (n + 1) = List.range' s n ++ [s + n] := by
  induction n generalizing s with
  | zero => simp
  | succ n ih =>
    rw [List.range'_succ, ih (s + 1), List.range'_succ s n]
    have h : s + 1 + n = s + (n + 1) := by omega
    simp [h]

theorem foldl_invariant {α β : Type} (f : β → α → β) (P : β → Prop)
    (hf : ∀ b a, P b → P (f b a)) :
    ∀ (l : List α) (b : β), P b → P (l.foldl f b) := by
  intro l
  induction l with
  | nil => intro b hb; exact hb
  | cons x xs ih => intro b hb; exact ih (f b x) (hf b x hb)

/-! ## Basic `Mat` lemmas -/

theorem Mat.size_set (m : Mat) (i j : ℕ) (v : Scalar) :
    (m.set i j v).size = m.size := rfl

theorem Mat.length_set (m : Mat) (i j : ℕ) (v : Scalar) :
    (m.set i j v).data.length = m.data.length := List.length_set _ _ _

theorem Mat.index_lt (m : Mat) {i j : ℕ} (hwf : m.wf)
    (hi : i < m.size) (hj : j < m.size) : m.index i j < m.data.length := by
  unfold Mat.wf at hwf
  unfold Mat.index
  calc i * m.size + j < i * m.size + m.size := by omega
    _ = (i + 1) * m.size := by ring
    _ ≤ m.size * m.size := Nat.mul_le_mul_right _ (by omega)
    _ = m.data.length := hwf.symm

theorem Mat.index_inj (m : Mat) {i j p q : ℕ}
    (hj : j < m.size) (hq : q < m.size) (h : m.index i j = m.index p q) :
    i = p ∧ j = q := by
  unfold Mat.index at h
  have hs : 0 < m.size := by omega
  have h1 : (i * m.size + j) / m.size = i := by
    rw [Nat.add_comm, Nat.add_mul_div_right _ _ hs, Nat.div_eq_of_lt hj]
    omega
  have h2 : (p * m.size + q) / m.size = p := by
    rw [Nat.add_comm, Nat.add_mul_div_right _ _ hs, Nat.div_eq_of_lt hq]
    omega
  have hip : i = p := by rw [← h1, ← h2, h]
  refine ⟨hip, ?_⟩
  subst hip
  omega

theorem Mat.get_set_self (m : Mat) {i j : ℕ} (v : Scalar) (hwf : m.wf)
    (hi : i < m.size) (hj : j < m.size) : (m.set i j v).get i j = v := by
  unfold Mat.get Mat.set
  rw [List.getD_eq_getElem?_getD]
  show (m.data.set (m.index i j) v)[m.index i j]?.getD 0 = v
  rw [List.getElem?_set_eq_of_lt _ (m.index_lt hwf hi hj)]
  rfl

theorem Mat.get_set_of_ne (m : Mat) {i j p q : ℕ} (v : Scalar)
    (hj : j < m.size) (hq : q < m.size) (h : ¬(i = p ∧ j = q)) :
    (m.set i j v).get p q = m.get p q := by
  unfold Mat.get Mat.set
  rw [List.getD_eq_getElem?_getD, List.getD_eq_getElem?_getD]
  show (m.data.set (m.index i j) v)[m.index p q]?.getD 0 = _
  rw [List.getElem?_set_ne (fun hc => h (m.index_inj hj hq hc))]

theorem Mat.get_construct (n i j : ℕ) : (Mat.construct n).get i j = 0 := by
  unfold Mat.construct Mat.get
  rw [List.getD_eq_getElem?_getD, List.getElem?_replicate]
  split <;> rfl

/-! ## `swapRows` characterization -/

theorem Mat.size_swapRows (m : Mat) (i j : ℕ) :
    (m.swapRows i j).size = m.size := by
  unfold Mat.swapRows
  split
  · rfl
  · refine foldl_invariant _ (fun a => a.size = m.size) ?_ _ m rfl
    intro b a hb
    exact hb

theorem Mat.length_swapRows (m : Mat) (i j : ℕ) :
    (m.swapRows i j).data.length = m.data.length := by
  unfold Mat.swapRows
  split
  · rfl
  · refine foldl_invariant _ (fun a => a.data.length = m.data.length) ?_ _ m rfl
    intro b a hb
    rw [Mat.length_set, Mat.length_set]
    exact hb

/-- The body of the `swapRows` loop (lines 72-75). -/
def swapFoldF (i j : ℕ) : Mat → ℕ → Mat :=
  fun acc k =>
    let a := acc.get i k
    let b := acc.get j k
    (acc.set i k b).set j k a

theorem swapRows_eq_fold (m : Mat) (i j : ℕ) (h : ¬i = j) :
    m.swapRows i j = (List.range m.size).foldl (swapFoldF i j) m := by
  unfold Mat.swapRows swapFoldF
  simp [h]

theorem swapFold_spec (m : Mat) {i j : ℕ} (hwf : m.wf) (hi : i < m.size)
    (hj : j < m.size) (hij : ¬i = j) :
    ∀ c, c ≤ m.size →
      ((List.range c).foldl (swapFoldF i j) m).size = m.size ∧
      ((List.range c).foldl (swapFoldF i j) m).data.length = m.data.length ∧
      ∀ p q, q < m.size →
        ((List.range c).foldl (swapFoldF i j) m).get p q =
          if p = i ∧ q < c then m.get j q
          else if p = j ∧ q < c then m.get i q
          else m.get p q := by
  intro c
  induction c with
  | zero =>
    intro _
    refine ⟨rfl, rfl, ?_⟩
    intro p q hq
    simp
  | succ c ih =>
    intro hc
    obtain ⟨hsz, hlen, hget⟩ := ih (by omega)
    set acc := (List.range c).foldl (swapFoldF i j) m with hacc
    rw [List.range_succ c, List.foldl_append]
    have hgc : c < m.size := by omega
    have hgj : acc.get j c = m.get j c := by
      rw [hget j c hgc]
      simp [hij, Ne.symm hij]
    have hgi : acc.get i c = m.get i c := by
      rw [hget i c hgc]
      simp [hij]
    have hc' : c < acc.size := by rw [hsz]; exact hgc
    have hacc_wf : acc.wf := by
      unfold Mat.wf
      rw [hlen, hsz]
      exact hwf
    have hA_wf : (acc.set i c (acc.get j c)).wf := by
      unfold Mat.wf
      rw [Mat.length_set, Mat.size_set]
      exact hacc_wf
    refine ⟨hsz, ?_, ?_⟩
    · show ((acc.set i c _).set j c _).data.length = m.data.length
      rw [Mat.length_set, Mat.length_set]
      exact hlen
    · intro p q hq
      have hq' : q < acc.size := by rw [hsz]; exact hq
      have hi' : i < acc.size := by rw [hsz]; exact hi
      have hj' : j < acc.size := by rw [hsz]; exact hj
      show ((acc.set i c (acc.get j c)).set j c (acc.get i c)).get p q = _
      by_cases hqc : q = c
      · by_cases hpj : p = j
        · rw [show p = j from hpj, show q = c from hqc]
          rw [Mat.get_set_self (acc.set i c (acc.get j c)) (acc.get i c) hA_wf hj' hc', hgi]
          simp [show ¬j = i from fun h => hij h.symm, Nat.lt_succ_self]
        · rw [show q = c from hqc]
          rw [Mat.get_set_of_ne (acc.set i c (acc.get j c)) (acc.get i c) hc' hc'
            (show ¬(j = p ∧ c = c) from fun hcon => hpj hcon.1.symm)]
          by_cases hpi : p = i
          · rw [show p = i from hpi]
            rw [Mat.get_set_self acc (acc.get j c) hacc_wf hi' hc', hgj]
            simp [Nat.lt_succ_self]
          · rw [Mat.get_set_of_ne acc (acc.get j c) hc' hc'
              (show ¬(i = p ∧ c = c) from fun hcon => hpi hcon.1.symm)]
            rw [hget p c hgc]
            simp [hpi, hpj]
      · rw [Mat.get_set_of_ne (acc.set i c (acc.get j c)) (acc.get i c) hc' hq'
          (show ¬(j = p ∧ c = q) from fun hcon => hqc hcon.2.symm)]
        rw [Mat.get_set_of_ne acc (acc.get j c) hc' hq'
          (show ¬(i = p ∧ c = q) from fun hcon => hqc hcon.2.symm)]
        rw [hget p q hq]
        have h1 : (q < c + 1) ↔ (q < c) := by omega
        simp [h1]

theorem Mat.get_swapRows (m : Mat) {i j : ℕ} (hwf : m.wf) (hi : i < m.size)
    (hj : j < m.size) (p q : ℕ) (hq : q < m.size) :
    (m.swapRows i j).get p q =
      if p = i then m.get j q else if p = j then m.get i q else m.get p q := by
  by_cases hij : i = j
  · subst hij
    unfold Mat.swapRows
    simp only [if_pos rfl]
    by_cases hpi : p = i <;> simp [hpi]
  · rw [swapRows_eq_fold m i j hij]
    obtain ⟨_, _, hget⟩ := swapFold_spec m hwf hi hj hij m.size le_rfl
    rw [hget p q hq]
    simp [hq]

/-! ## `findPivot` characterization -/

theorem findPivot_fold_spec (m : Mat) (k : ℕ) : ∀ c : ℕ,
    (((List.range' (k+1) c).foldl (pivF m k) (k, |m.get k k|)).1 = k ∨
      (k + 1 ≤ ((List.range' (k+1) c).foldl (pivF m k) (k, |m.get k k|)).1 ∧
       ((List.range' (k+1) c).foldl (pivF m k) (k, |m.get k k|)).1 < k + 1 + c)) ∧
    ((List.range' (k+1) c).foldl (pivF m k) (k, |m.get k k|)).2 =
      |m.get ((List.range' (k+1) c).foldl (pivF m k) (k, |m.get k k|)).1 k| ∧
    (∀ t, k ≤ t → t < k + 1 + c →
      |m.get t k| ≤ ((List.range' (k+1) c).foldl (pivF m k) (k, |m.get k k|)).2) ∧
    (∀ t, k ≤ t → t < ((List.range' (k+1) c).foldl (pivF m k) (k, |m.get k k|)).1 →
      |m.get t k| < ((List.range' (k+1) c).foldl (pivF m k) (k, |m.get k k|)).2) := by
  intro c
  induction c with
  | zero =>
    refine ⟨Or.inl rfl, rfl, ?_, ?_⟩
    · intro t ht1 ht2
      have : t = k := by omega
      rw [this]
      exact le_refl _
    · intro t ht1 ht2
      simp at ht2
      omega
  | succ c ih =>
    obtain ⟨hpos, hval, hle, hlt⟩ := ih
    set p := (List.range' (k+1) c).foldl (pivF m k) (k, |m.get k k|) with hp
    rw [range'_concat1 (k+1) c, List.foldl_append]
    show (And _ (And _ (And _ _)))
    have hbody : List.foldl (pivF m k) p [k + 1 + c] = pivF m k p (k + 1 + c) := rfl
    rw [hbody]
    unfold pivF
    by_cases hgt : |m.get (k + 1 + c) k| > p.2
    · rw [if_pos hgt]
      refine ⟨Or.inr ⟨by omega, by omega⟩, rfl, ?_, ?_⟩
      · intro t ht1 ht2
        by_cases htc : t = k + 1 + c
        · rw [htc]
        · exact le_of_lt (lt_of_le_of_lt (hle t ht1 (by omega)) hgt)
      · intro t ht1 ht2
        exact lt_of_le_of_lt (hle t ht1 (by omega)) hgt
    · rw [if_neg hgt]
      refine ⟨?_, hval, ?_, hlt⟩
      · rcases hpos with h | h
        · exact Or.inl h
        · exact Or.inr ⟨h.1, by omega⟩
      · intro t ht1 ht2
        by_cases htc : t = k + 1 + c
        · rw [htc]; exact le_of_not_lt hgt
        · exact hle t ht1 (by omega)

theorem findPivot_spec (m : Mat) (k : ℕ) (hk : k < m.size) :
    k ≤ (findPivot m k).1 ∧ (findPivot m k).1 < m.size ∧
    (findPivot m k).2 = |m.get (findPivot m k).1 k| ∧
    (∀ t, k ≤ t → t < m.size → |m.get t k| ≤ (findPivot m k).2) ∧
    (∀ t, k ≤ t → t < (findPivot m k).1 → |m.get t k| < (findPivot m k).2) := by
  have h := findPivot_fold_spec m k (m.size - (k+1))
  have hrange : k + 1 + (m.size - (k+1)) = m.size := by omega
  rw [hrange] at h
  unfold findPivot
  obtain ⟨hpos, hval, hle, hlt⟩ := h
  refine ⟨?_, ?_, hval, hle, hlt⟩
  · rcases hpos with h | h
    · omega
    · omega
  · rcases hpos with h | h
    · omega
    · omega

/-! ## `eliminate` characterization -/

theorem elimRow_spec (acc : Mat) {i k : ℕ} (factor : Scalar) (hwf : acc.wf)
    (hik : k < i) (hi : i < acc.size) (hk : k < acc.size) : ∀ c : ℕ,
    c ≤ acc.size - (k + 1) →
    ((List.range' (k+1) c).foldl (elimRowF i k factor) acc).size = acc.size ∧
    ((List.range' (k+1) c).foldl (elimRowF i k factor) acc).data.length = acc.data.length ∧
    ∀ p q, q < acc.size →
      ((List.range' (k+1) c).foldl (elimRowF i k factor) acc).get p q =
        if p = i ∧ k + 1 ≤ q ∧ q < k + 1 + c then qsub (acc.get p q) (qmul factor (acc.get k q))
        else acc.get p q := by
  intro c
  induction c with
  | zero =>
    intro _
    refine ⟨rfl, rfl, ?_⟩
    intro p q hq
    have : ¬(p = i ∧ k + 1 ≤ q ∧ q < k + 1 + 0) := by omega
    rw [if_neg this]
    rfl
  | succ c ih =>
    intro hc
    obtain ⟨hsz, hlen, hget⟩ := ih (by omega)
    set acc2 := (List.range' (k+1) c).foldl (elimRowF i k factor) acc with hacc2
    rw [range'_concat1 (k+1) c, List.foldl_append]
    have hbody : List.foldl (elimRowF i k factor) acc2 [k + 1 + c] =
        acc2.set i (k+1+c) (qsub (acc2.get i (k+1+c)) (qmul factor (acc2.get k (k+1+c)))) := rfl
    rw [hbody]
    have hx : k + 1 + c < acc.size := by omega
    have hx2 : k + 1 + c < acc2.size := by rw [hsz]; exact hx
    have hi2 : i < acc2.size := by rw [hsz]; exact hi
    have hacc2_wf : acc2.wf := by
      unfold Mat.wf
      rw [hlen, hsz]
      exact hwf
    have hgi : acc2.get i (k+1+c) = acc.get i (k+1+c) := by
      rw [hget i (k+1+c) hx]
      have : ¬(i = i ∧ k + 1 ≤ k+1+c ∧ k+1+c < k + 1 + c) := by omega
      rw [if_neg this]
    have hgk : acc2.get k (k+1+c) = acc.get k (k+1+c) := by
      rw [hget k (k+1+c) hx]
      have : ¬(k = i ∧ k + 1 ≤ k+1+c ∧ k+1+c < k + 1 + c) := by omega
      rw [if_neg this]
    refine ⟨hsz, ?_, ?_⟩
    · rw [Mat.length_set]
      exact hlen
    · intro p q hq
      have hq2 : q < acc2.size := by rw [hsz]; exact hq
      by_cases hpq : p = i ∧ q = k + 1 + c
      · rw [hpq.1, hpq.2]
        rw [Mat.get_set_self acc2 _ hacc2_wf hi2 hx2, hgi, hgk]
        have : i = i ∧ k + 1 ≤ k+1+c ∧ k+1+c < k + 1 + (c+1) := by omega
        rw [if_pos this]
      · rw [Mat.get_set_of_ne acc2 _ hx2 hq2
          (show ¬(i = p ∧ k+1+c = q) from fun hcon => hpq ⟨hcon.1.symm, hcon.2.symm⟩)]
        rw [hget p q hq]
        by_cases hcond : p = i ∧ k + 1 ≤ q ∧ q < k + 1 + c
        · rw [if_pos hcond, if_pos (by omega : p = i ∧ k + 1 ≤ q ∧ q < k + 1 + (c+1))]
        · rw [if_neg hcond, if_neg (by
            rintro ⟨h1, h2, h3⟩
            exact hcond ⟨h1, h2, by
              rcases Nat.lt_succ_iff_lt_or_eq.mp (by omega : q < (k + 1 + c) + 1) with h | h
              · exact h
              · exact absurd ⟨h1, h⟩ hpq⟩)]

theorem elimOuterF_size (k : ℕ) (pv : Scalar) (b : Mat) (a : ℕ) :
    (elimOuterF k pv b a).size = b.size := by
  unfold elimOuterF
  refine foldl_invariant _ (fun x : Mat => x.size = b.size) ?_ _ _ rfl
  intro b2 j hb2
  exact hb2

theorem elimOuterF_length (k : ℕ) (pv : Scalar) (b : Mat) (a : ℕ) :
    (elimOuterF k pv b a).data.length = b.data.length := by
  unfold elimOuterF
  refine foldl_invariant _ (fun x : Mat => x.data.length = b.data.length) ?_ _ _ ?_
  · intro b2 j hb2
    unfold elimRowF
    rw [Mat.length_set]
    exact hb2
  · exact Mat.length_set b a k _

theorem eliminate_size (m : Mat) (k : ℕ) (pv : Scalar) :
    (eliminate m k pv).size = m.size := by
  unfold eliminate
  refine foldl_invariant _ (fun x : Mat => x.size = m.size) ?_ _ _ rfl
  intro b a hb
  rw [elimOuterF_size]
  exact hb

theorem eliminate_length (m : Mat) (k : ℕ) (pv : Scalar) :
    (eliminate m k pv).data.length = m.data.length := by
  unfold eliminate
  refine foldl_invariant _ (fun x : Mat => x.data.length = m.data.length) ?_ _ _ rfl
  intro b a hb
  rw [elimOuterF_length]
  exact hb

theorem eliminate_fold_spec (m : Mat) {k : ℕ} (pv : Scalar) (hwf : m.wf)
    (hk : k < m.size) : ∀ c : ℕ, c ≤ m.size - (k + 1) →
    ((List.range' (k+1) c).foldl (elimOuterF k pv) m).size = m.size ∧
    ((List.range' (k+1) c).foldl (elimOuterF k pv) m).data.length = m.data.length ∧
    ∀ p q, q < m.size →
      ((List.range' (k+1) c).foldl (elimOuterF k pv) m).get p q =
        if k + 1 ≤ p ∧ p < k + 1 + c then
          (if q = k then qdiv (m.get p k) pv
           else if k + 1 ≤ q then qsub (m.get p q) (qmul (qdiv (m.get p k) pv) (m.get k q))
           else m.get p q)
        else m.get p q := by
  intro c
  induction c with
  | zero =>
    intro _
    refine ⟨rfl, rfl, ?_⟩
    intro p q hq
    have : ¬(k + 1 ≤ p ∧ p < k + 1 + 0) := by omega
    rw [if_neg this]
    rfl
  | succ c ih =>
    intro hc
    obtain ⟨hsz, hlen, hget⟩ := ih (by omega)
    set acc := (List.range' (k+1) c).foldl (elimOuterF k pv) m with hacc
    rw [range'_concat1 (k+1) c, List.foldl_append]
    set x := k + 1 + c with hxdef
    have hbody : List.foldl (elimOuterF k pv) acc [x] = elimOuterF k pv acc x := rfl
    rw [hbody]
    have hxm : x < m.size := by omega
    have hxa : x < acc.size := by rw [hsz]; exact hxm
    have hka : k < acc.size := by rw [hsz]; exact hk
    have hacc_wf : acc.wf := by
      unfold Mat.wf
      rw [hlen, hsz]
      exact hwf
    -- name the stored multiplier and the matrix after storing it
    set factor := qdiv (acc.get x k) pv with hfactor
    set acc1 := acc.set x k factor with hacc1
    have hacc1_wf : acc1.wf := by
      unfold Mat.wf
      rw [hacc1, Mat.length_set, Mat.size_set]
      exact hacc_wf
    have hsz1 : acc1.size = m.size := by rw [hacc1, Mat.size_set]; exact hsz
    have hout : elimOuterF k pv acc x =
        (List.range' (k+1) (acc1.size - (k + 1))).foldl (elimRowF x k factor) acc1 := rfl
    rw [hout]
    have hrow := elimRow_spec acc1 factor hacc1_wf (by omega : k < x)
      (by rw [hsz1]; exact hxm) (by rw [hsz1]; exact hk)
      (acc1.size - (k + 1)) le_rfl
    obtain ⟨hrsz, hrlen, hrget⟩ := hrow
    have hfull : k + 1 + (acc1.size - (k + 1)) = m.size := by
      rw [hsz1]; omega
    -- facts about acc1 reads
    have hacc_x_k : acc.get x k = m.get x k := by
      rw [hget x k hk]
      have h1 : ¬(k + 1 ≤ x ∧ x < k + 1 + c) := by omega
      rw [if_neg h1]
    have hacc1_get : ∀ p q, q < m.size → ¬(p = x ∧ q = k) →
        acc1.get p q = acc.get p q := by
      intro p q hq hne
      rw [hacc1]
      exact Mat.get_set_of_ne acc factor hka (by rw [hsz]; exact hq)
        (fun hcon => hne ⟨hcon.1.symm, hcon.2.symm⟩)
    have hacc1_x_k : acc1.get x k = factor := by
      rw [hacc1]
      exact Mat.get_set_self acc factor hacc_wf hxa hka
    refine ⟨by rw [hrsz]; exact hsz1, by rw [hrlen, hacc1, Mat.length_set]; exact hlen, ?_⟩
    intro p q hq
    have hq1 : q < acc1.size := by rw [hsz1]; exact hq
    rw [hrget p q hq1]
    by_cases hpx : p = x
    · -- the freshly processed row
      by_cases hqk : q = k
      · have hcond : ¬(p = x ∧ k + 1 ≤ q ∧ q < k + 1 + (acc1.size - (k+1))) := by omega
        rw [if_neg hcond, hpx, hqk, hacc1_x_k, hfactor, hacc_x_k]
        have h2 : k + 1 ≤ x ∧ x < k + 1 + (c + 1) := by omega
        rw [if_pos h2, if_pos rfl]
      · by_cases hqgt : k + 1 ≤ q
        · have hcond : p = x ∧ k + 1 ≤ q ∧ q < k + 1 + (acc1.size - (k+1)) := by
            refine ⟨hpx, hqgt, ?_⟩
            rw [hfull]
            exact hq
          rw [if_pos hcond]
          rw [hacc1_get p q hq (show ¬(p = x ∧ q = k) from fun hcon => hqk hcon.2),
              hacc1_get k q hq (show ¬(k = x ∧ q = k) from fun hcon => (by omega : ¬k = x) hcon.1)]
          rw [hpx, hfactor, hacc_x_k]
          rw [hget x q hq]
          have h1 : ¬(k + 1 ≤ x ∧ x < k + 1 + c) := by omega
          rw [if_neg h1]
          rw [hget k q hq]
          have h2 : ¬(k + 1 ≤ k ∧ k < k + 1 + c) := by omega
          rw [if_neg h2]
          have h3 : k + 1 ≤ x ∧ x < k + 1 + (c + 1) := by omega
          rw [if_pos h3, if_neg hqk, if_pos hqgt]
        · -- q < k
          have hcond : ¬(p = x ∧ k + 1 ≤ q ∧ q < k + 1 + (acc1.size - (k+1))) := by
            rintro ⟨_, h2, _⟩
            exact hqgt h2
          rw [if_neg hcond]
          rw [hacc1_get p q hq (show ¬(p = x ∧ q = k) from fun hcon => hqk hcon.2), hpx]
          rw [hget x q hq]
          have h1 : ¬(k + 1 ≤ x ∧ x < k + 1 + c) := by omega
          rw [if_neg h1]
          have h3 : k + 1 ≤ x ∧ x < k + 1 + (c + 1) := by omega
          rw [if_pos h3, if_neg hqk, if_neg hqgt]
    · -- rows other than x are untouched by this outer step
      have hcond : ¬(p = x ∧ k + 1 ≤ q ∧ q < k + 1 + (acc1.size - (k+1))) := by
        rintro ⟨h1, _, _⟩
        exact hpx h1
      rw [if_neg hcond]
      rw [hacc1_get p q hq (show ¬(p = x ∧ q = k) from fun hcon => hpx hcon.1)]
      rw [hget p q hq]
      by_cases hpr : k + 1 ≤ p ∧ p < k + 1 + c
      · rw [if_pos hpr, if_pos (by omega : k + 1 ≤ p ∧ p < k + 1 + (c + 1))]
      · rw [if_neg hpr, if_neg (by
          rintro ⟨h1, h2⟩
          exact hpr ⟨h1, by omega⟩)]

theorem Mat.get_eliminate (m : Mat) {k : ℕ} (pv : Scalar) (hwf : m.wf)
    (hk : k < m.size) (p q : ℕ) (hq : q < m.size) :
    (eliminate m k pv).get p q =
      if k + 1 ≤ p ∧ p < m.size then
        (if q = k then qdiv (m.get p k) pv
         else if k + 1 ≤ q then qsub (m.get p q) (qmul (qdiv (m.get p k) pv) (m.get k q))
         else m.get p q)
      else m.get p q := by
  obtain ⟨_, _, hget⟩ := eliminate_fold_spec m pv hwf hk (m.size - (k+1)) le_rfl
  unfold eliminate
  rw [hget p q hq]
  have h1 : k + 1 + (m.size - (k+1)) = m.size := by omega
  rw [h1]


/-! ## Run-level preservation and absorption -/

/-- The matrix carried by a loop state. -/
def RunState.mat : RunState → Mat
  | .running m _ _ _ => m
  | .done m => m

/-- The matrix after the conditional row swap of lines 117-122. -/
def stepM1 (m : Mat) (k : ℕ) : Mat :=
  if (findPivot m k).1 ≠ k then m.swapRows k (findPivot m k).1 else m

/-- `pivot_val = matrix(k,k)` read after the conditional swap (line 124). -/
def stepPV (m : Mat) (k : ℕ) : Scalar := (stepM1 m k).get k k

/-- The pivot bookkeeping array after the conditional swap (line 120). -/
def stepPiv (m : Mat) (k : ℕ) (piv : List ℕ) : List ℕ :=
  if (findPivot m k).1 ≠ k
  then (piv.set k (piv.getD (findPivot m k).1 0)).set (findPivot m k).1 (piv.getD k 0)
  else piv

/-- The sign accumulator after the conditional swap (line 121). -/
def stepSign (m : Mat) (k : ℕ) (sign : ℤ) : ℤ :=
  if (findPivot m k).1 ≠ k then -sign else sign

theorem step_running (m : Mat) (piv : List ℕ) (det : Scalar) (sign : ℤ) (k : ℕ) :
    step (.running m piv det sign) k =
      if |stepPV m k| < epsilon then .done (stepM1 m k)
      else .running (eliminate (stepM1 m k) k (stepPV m k)) (stepPiv m k piv)
        (qmul det (stepPV m k)) (stepSign m k sign) := rfl

theorem step_done (s : Mat) (k : ℕ) : step (RunState.done s) k = RunState.done s := rfl

theorem foldl_step_done (l : List ℕ) (s : Mat) :
    l.foldl step (RunState.done s) = RunState.done s := by
  refine foldl_invariant step (fun x => x = RunState.done s) ?_ l _ rfl
  intro b a hb
  rw [hb]
  rfl

theorem stepM1_size (m : Mat) (k : ℕ) : (stepM1 m k).size = m.size := by
  unfold stepM1
  split
  · exact Mat.size_swapRows m k _
  · rfl

theorem stepM1_length (m : Mat) (k : ℕ) :
    (stepM1 m k).data.length = m.data.length := by
  unfold stepM1
  split
  · exact Mat.length_swapRows m k _
  · rfl

theorem step_mat_size (s : RunState) (k : ℕ) :
    (step s k).mat.size = s.mat.size ∧
    (step s k).mat.data.length = s.mat.data.length := by
  cases s with
  | done m => exact ⟨rfl, rfl⟩
  | running m piv det sign =>
    rw [step_running]
    split
    · exact ⟨stepM1_size m k, stepM1_length m k⟩
    · constructor
      · show (eliminate (stepM1 m k) k (stepPV m k)).size = m.size
        rw [eliminate_size, stepM1_size]
      · show (eliminate (stepM1 m k) k (stepPV m k)).data.length = m.data.length
        rw [eliminate_length, stepM1_length]

theorem runFold_mat_size (m : Mat) :
    (runFold m).mat.size = m.size ∧ (runFold m).mat.data.length = m.data.length := by
  unfold runFold
  refine foldl_invariant step
    (fun s => s.mat.size = m.size ∧ s.mat.data.length = m.data.length) ?_ _ _ ⟨rfl, rfl⟩
  intro b a hb
  obtain ⟨h1, h2⟩ := step_mat_size b a
  exact ⟨h1.trans hb.1, h2.trans hb.2⟩

theorem calculateDeterminant_mat (m : Mat) :
    (calculateDeterminant m).2.size = m.size ∧
    (calculateDeterminant m).2.data.length = m.data.length := by
  unfold calculateDeterminant
  split
  · exact ⟨rfl, rfl⟩
  · split
    · exact ⟨rfl, rfl⟩
    · have h := runFold_mat_size m
      split
      · next m' piv det sign heq =>
        rw [heq] at h
        exact h
      · next m' heq =>
        rw [heq] at h
        exact h

/-! ## Instrumented run: pivot/sign trace (for the product formula) -/

/-- One recorded iteration of the main loop: the pivot column `col`, the
selected pivot row `pr`, and the pivot value `pv` multiplied into `det`. -/
structure TraceEntry where
  col : ℕ
  pr : ℕ
  pv : Scalar
deriving DecidableEq, Repr

/-- `step`, additionally recording a `TraceEntry` per completed iteration. -/
def tstep : RunState × List TraceEntry → ℕ → RunState × List TraceEntry :=
  fun st k =>
    match st with
    | (.done m, tr) => (.done m, tr)
    | (.running m piv det sign, tr) =>
      if |stepPV m k| < epsilon then (.done (stepM1 m k), tr)
      else (.running (eliminate (stepM1 m k) k (stepPV m k)) (stepPiv m k piv)
              (qmul det (stepPV m k)) (stepSign m k sign),
            tr ++ [⟨k, (findPivot m k).1, stepPV m k⟩])

theorem tstep_running (m : Mat) (piv : List ℕ) (det : Scalar) (sign : ℤ)
    (tr : List TraceEntry) (k : ℕ) :
    tstep (.running m piv det sign, tr) k =
      if |stepPV m k| < epsilon then (.done (stepM1 m k), tr)
      else (.running (eliminate (stepM1 m k) k (stepPV m k)) (stepPiv m k piv)
              (qmul det (stepPV m k)) (stepSign m k sign),
            tr ++ [⟨k, (findPivot m k).1, stepPV m k⟩]) := rfl

theorem tstep_proj (st : RunState × List TraceEntry) (k : ℕ) :
    (tstep st k).1 = step st.1 k := by
  obtain ⟨s, tr⟩ := st
  cases s with
  | done m => rfl
  | running m piv det sign =>
    show (tstep (RunState.running m piv det sign, tr) k).1 = _
    rw [tstep_running, step_running]
    by_cases h : |stepPV m k| < epsilon
    · rw [if_pos h, if_pos h]
    · rw [if_neg h, if_neg h]

theorem tfold_proj (l : List ℕ) : ∀ st : RunState × List TraceEntry,
    (l.foldl tstep st).1 = l.foldl step st.1 := by
  induction l with
  | nil => intro st; rfl
  | cons x xs ih =>
    intro st
    show (xs.foldl tstep (tstep st x)).1 = xs.foldl step (step st.1 x)
    rw [ih (tstep st x), tstep_proj st x]

theorem tfold_done (l : List ℕ) (m : Mat) (tr : List TraceEntry) :
    l.foldl tstep (RunState.done m, tr) = (RunState.done m, tr) := by
  refine foldl_invariant tstep (fun x => x = (RunState.done m, tr)) ?_ l _ rfl
  intro b a hb
  rw [hb]
  rfl

/-- Main bookkeeping invariant of the instrumented loop: along any list of
pivot columns, a run that stays `running` appends exactly one trace entry
per column, multiplies `det` by each recorded pivot, flips `sign` once per
recorded row swap, and every recorded pivot passed the threshold test. -/
theorem tfold_run : ∀ (l : List ℕ) (m : Mat) (piv : List ℕ) (det : Scalar)
    (sign : ℤ) (tr : List TraceEntry) (m' : Mat) (piv' : List ℕ)
    (det' : Scalar) (sign' : ℤ) (tr' : List TraceEntry),
    l.foldl tstep (.running m piv det sign, tr) = (.running m' piv' det' sign', tr') →
    ∃ new : List TraceEntry, tr' = tr ++ new ∧ new.map TraceEntry.col = l ∧
      det' = det * (new.map TraceEntry.pv).prod ∧
      sign' = sign * (-1) ^ (new.filter (fun e => e.pr != e.col)).length ∧
      ∀ e ∈ new, epsilon ≤ |e.pv| := by
  intro l
  induction l with
  | nil =>
    intro m piv det sign tr m' piv' det' sign' tr' h
    injection h with h1 h2
    injection h1 with hm hpiv hdet hsign
    exact ⟨[], by rw [h2]; simp, rfl, by rw [hdet]; simp, by rw [hsign]; simp,
      by simp⟩
  | cons x xs ih =>
    intro m piv det sign tr m' piv' det' sign' tr' h
    rw [List.foldl_cons, tstep_running] at h
    by_cases hth : |stepPV m x| < epsilon
    · exfalso
      rw [if_pos hth, tfold_done] at h
      injection h with h1 _
      cases h1
    · rw [if_neg hth] at h
      obtain ⟨new, hnew1, hnew2, hnew3, hnew4, hnew5⟩ :=
        ih (eliminate (stepM1 m x) x (stepPV m x)) (stepPiv m x piv)
          (qmul det (stepPV m x)) (stepSign m x sign)
          (tr ++ [⟨x, (findPivot m x).1, stepPV m x⟩]) m' piv' det' sign' tr' h
      refine ⟨⟨x, (findPivot m x).1, stepPV m x⟩ :: new, ?_, ?_, ?_, ?_, ?_⟩
      · rw [hnew1]
        simp
      · rw [List.map_cons, hnew2]
      · rw [hnew3, qmul_eq_mul, List.map_cons, List.prod_cons]
        ring
      · rw [hnew4]
        unfold stepSign
        by_cases hprx : (findPivot m x).1 ≠ x
        · rw [if_pos hprx]
          have hb : ((⟨x, (findPivot m x).1, stepPV m x⟩ : TraceEntry).pr !=
              (⟨x, (findPivot m x).1, stepPV m x⟩ : TraceEntry).col) = true := by
            simp [hprx]
          rw [List.filter_cons, if_pos hb, List.length_cons]
          ring
        · rw [if_neg hprx]
          have hb : ((⟨x, (findPivot m x).1, stepPV m x⟩ : TraceEntry).pr !=
              (⟨x, (findPivot m x).1, stepPV m x⟩ : TraceEntry).col) = false := by
            simp at hprx
            simp [hprx]
          rw [List.filter_cons, hb]
          simp
      · intro e he
        rcases List.mem_cons.mp he with h' | h'
        · rw [h']
          exact le_of_not_lt hth
        · exact hnew5 e h'

/-- The instrumented run of the main loop, starting from the caller's
matrix with `det = 1`, `sign = +1` and an empty trace. -/
def trunFold (m : Mat) : RunState × List TraceEntry :=
  (List.range m.size).foldl tstep (.running m (List.range m.size) 1 1, [])

/-- The per-column pivot trace of a run of `calculateDeterminant`. -/
def detTrace (m : Mat) : List TraceEntry := (trunFold m).2

theorem trunFold_proj (m : Mat) : (trunFold m).1 = runFold m :=
  tfold_proj (List.range m.size) _

/-- When the main loop completes, its accumulators are exactly the product
of the recorded pivots and the parity of the recorded row swaps. -/
theorem runFold_det_sign (m : Mat) (m' : Mat) (piv' : List ℕ) (det : Scalar)
    (sign : ℤ) (hr : runFold m = .running m' piv' det sign) :
    det = ((detTrace m).map TraceEntry.pv).prod ∧
    sign = (-1) ^ ((detTrace m).filter (fun e => e.pr != e.col)).length ∧
    (detTrace m).map TraceEntry.col = List.range m.size ∧
    ∀ e ∈ detTrace m, epsilon ≤ |e.pv| := by
  have hp := trunFold_proj m
  rw [hr] at hp
  have h2 : trunFold m = ((trunFold m).1, (trunFold m).2) := rfl
  rw [hp] at h2
  have h3 : (List.range m.size).foldl tstep
      (.running m (List.range m.size) 1 1, []) =
      (.running m' piv' det sign, detTrace m) := h2
  obtain ⟨new, hnew1, hnew2, hnew3, hnew4, hnew5⟩ :=
    tfold_run (List.range m.size) m (List.range m.size) 1 1 [] m' piv' det sign
      (detTrace m) h3
  have hne : new = detTrace m := by
    rw [hnew1]
    simp
  rw [hne] at hnew2 hnew3 hnew4 hnew5
  refine ⟨by rw [hnew3]; ring, by rw [hnew4]; ring, hnew2, hnew5⟩

theorem runFold_done_of_not_completes (m : Mat) (h : ¬completes m) :
    ∃ m', runFold m = .done m' := by
  cases hr : runFold m with
  | running m' piv det sign => exact absurd ⟨m', piv, det, sign, hr⟩ h
  | done m' => exact ⟨m', rfl⟩

theorem calcDet_zero_of_not_completes (m : Mat) (h2 : 2 ≤ m.size)
    (h : ¬completes m) : (calculateDeterminant m).1 = 0 := by
  obtain ⟨m', hm'⟩ := runFold_done_of_not_completes m h
  unfold calculateDeterminant
  rw [if_neg (by omega : ¬m.size = 0), if_neg (by omega : ¬m.size = 1), hm']

theorem calcDet_eq_signed_product (m : Mat) (h : completes m) :
    (calculateDeterminant m).1 =
      ((detTrace m).map TraceEntry.pv).prod *
        (-1 : Scalar) ^ ((detTrace m).filter (fun e => e.pr != e.col)).length := by
  obtain ⟨m', piv', det, sign, hr⟩ := h
  obtain ⟨hdet, hsign, hcol, _⟩ := runFold_det_sign m m' piv' det sign hr
  by_cases h0 : m.size = 0
  · have hcol0 : (detTrace m).map TraceEntry.col = [] := by
      rw [hcol, h0]
      rfl
    have htr : detTrace m = [] := List.map_eq_nil_iff.mp hcol0
    unfold calculateDeterminant
    rw [if_pos h0, htr]
    simp
  · by_cases h1 : m.size = 1
    · have hfp : findPivot m 0 = (0, |m.get 0 0|) := by
        unfold findPivot
        rw [show m.size - (0+1) = 0 from by omega]
        rfl
      have hm1 : stepM1 m 0 = m := by
        unfold stepM1
        rw [hfp]
        simp
      have hpv : stepPV m 0 = m.get 0 0 := by
        unfold stepPV
        rw [hm1]
      have htr0 : trunFold m = (List.range m.size).foldl tstep
          (.running m (List.range m.size) 1 1, []) := rfl
      rw [h1] at htr0
      have htr1 : trunFold m = tstep (.running m (List.range 1) 1 1, []) 0 := by
        rw [htr0]
        rfl
      rw [tstep_running] at htr1
      by_cases hth : |stepPV m 0| < epsilon
      · exfalso
        rw [if_pos hth] at htr1
        have hproj := trunFold_proj m
        rw [htr1, hr] at hproj
        cases hproj
      · rw [if_neg hth] at htr1
        have htrace : detTrace m = [⟨0, (findPivot m 0).1, stepPV m 0⟩] := by
          unfold detTrace
          rw [htr1]
          simp
        rw [htrace, hfp, hpv]
        unfold calculateDeterminant
        rw [if_neg h0, if_pos h1]
        simp
    · unfold calculateDeterminant
      rw [if_neg h0, if_neg h1, hr]
      show qmul det (sign : Scalar) = _
      rw [qmul_eq_mul, hdet, hsign]
      push_cast
      ring

/-! ## Claim theorems: trivial sizes, pivot selection, trace formula, frame -/

/-- C2: `calculate_determinant` returns `1.0` for every 0x0 matrix, and for
every 1x1 matrix it returns `matrix(0,0)` directly; in both cases the
matrix is returned untouched (no elimination, no row swaps). -/
theorem calcDet_trivial_sizes (m : Mat) :
    (m.size = 0 → calculateDeterminant m = (1, m)) ∧
    (m.size = 1 → calculateDeterminant m = (m.get 0 0, m)) := by
  constructor
  · intro h
    unfold calculateDeterminant
    rw [if_pos h]
  · intro h
    unfold calculateDeterminant
    rw [if_neg (by omega : ¬m.size = 0), if_pos h]

theorem calcDet_trivial_sizes_witness :
    calculateDeterminant ⟨0, []⟩ = (1, ⟨0, []⟩) ∧
    calculateDeterminant ⟨1, [5]⟩ = (5, ⟨1, [5]⟩) :=
  ⟨(calcDet_trivial_sizes ⟨0, []⟩).1 rfl, (calcDet_trivial_sizes ⟨1, [5]⟩).2 rfl⟩

/-- C3: at pivot column `k` the engine selects the first row among rows
`k..n-1` whose entry in column `k` has the maximum absolute value: every
candidate is `≤` the selected one, and every earlier candidate is
strictly `<` it (the strict `>` update means ties keep the earliest row). -/
theorem findPivot_selects_first_max (m : Mat) (k : ℕ) (hk : k < m.size) :
    k ≤ (findPivot m k).1 ∧ (findPivot m k).1 < m.size ∧
    (∀ t, k ≤ t → t < m.size → |m.get t k| ≤ |m.get (findPivot m k).1 k|) ∧
    (∀ t, k ≤ t → t < (findPivot m k).1 → |m.get t k| < |m.get (findPivot m k).1 k|) := by
  obtain ⟨h1, h2, h3, h4, h5⟩ := findPivot_spec m k hk
  rw [h3] at h4 h5
  exact ⟨h1, h2, h4, h5⟩

theorem findPivot_selects_first_max_witness :
    0 < (⟨2, [1, 2, 3, 4]⟩ : Mat).size ∧
    (0 ≤ (findPivot ⟨2, [1, 2, 3, 4]⟩ 0).1 ∧
     (findPivot ⟨2, [1, 2, 3, 4]⟩ 0).1 < (⟨2, [1, 2, 3, 4]⟩ : Mat).size ∧
     (∀ t, 0 ≤ t → t < (⟨2, [1, 2, 3, 4]⟩ : Mat).size →
       |(⟨2, [1, 2, 3, 4]⟩ : Mat).get t 0| ≤
         |(⟨2, [1, 2, 3, 4]⟩ : Mat).get (findPivot ⟨2, [1, 2, 3, 4]⟩ 0).1 0|) ∧
     (∀ t, 0 ≤ t → t < (findPivot ⟨2, [1, 2, 3, 4]⟩ 0).1 →
       |(⟨2, [1, 2, 3, 4]⟩ : Mat).get t 0| <
         |(⟨2, [1, 2, 3, 4]⟩ : Mat).get (findPivot ⟨2, [1, 2, 3, 4]⟩ 0).1 0|)) :=
  ⟨by decide, findPivot_selects_first_max ⟨2, [1, 2, 3, 4]⟩ 0 (by decide)⟩

/-- C10: `calculate_determinant` never changes the matrix dimension or the
buffer length: only element values are overwritten in place. -/
theorem calcDet_preserves_dims (m : Mat) :
    (calculateDeterminant m).2.getSize = m.getSize ∧
    (calculateDeterminant m).2.data.length = m.data.length :=
  calculateDeterminant_mat m

/-- C4: when elimination completes without hitting the singularity
threshold, the result is the product of the recorded pivot values times
`(-1)` to the number of columns whose selected pivot row differed from
`k`, and there is exactly one recorded pivot per column `0..n-1`. -/
theorem calcDet_signed_pivot_product (m : Mat) (h : completes m) :
    (calculateDeterminant m).1 =
      ((detTrace m).map TraceEntry.pv).prod *
        (-1 : Scalar) ^ ((detTrace m).filter (fun e => e.pr != e.col)).length ∧
    (detTrace m).map TraceEntry.col = List.range m.size := by
  refine ⟨calcDet_eq_signed_product m h, ?_⟩
  obtain ⟨m', piv', det, sign, hr⟩ := h
  exact (runFold_det_sign m m' piv' det sign hr).2.2.1

theorem calcDet_signed_pivot_product_witness :
    completes ⟨2, [1, 2, 3, 4]⟩ ∧
    ((calculateDeterminant ⟨2, [1, 2, 3, 4]⟩).1 =
      ((detTrace ⟨2, [1, 2, 3, 4]⟩).map TraceEntry.pv).prod *
        (-1 : Scalar) ^
          ((detTrace ⟨2, [1, 2, 3, 4]⟩).filter (fun e => e.pr != e.col)).length ∧
     (detTrace ⟨2, [1, 2, 3, 4]⟩).map TraceEntry.col =
       List.range (⟨2, [1, 2, 3, 4]⟩ : Mat).size) :=
  ⟨by decide, calcDet_signed_pivot_product ⟨2, [1, 2, 3, 4]⟩ (by decide)⟩

/-! ## Ghost elimination: determinant correctness of the main loop

The in-place algorithm stores multipliers below the diagonal; the "ghost"
matrix is the same elimination with exact zeros written instead.  One
elimination pass is multiplication by a unit lower-triangular elementary
matrix, so it preserves the determinant. -/

/-- The `n × n` matrix over `ℚ` formed by the entries of `m` (row-major,
`m.get`). -/
def matN (n : ℕ) (m : Mat) : Matrix (Fin n) (Fin n) Scalar :=
  Matrix.of fun i j => m.get i j

/-- The mathematical determinant of the leading `n × n` block of `m`. -/
def detN (n : ℕ) (m : Mat) : Scalar := (matN n m).det

/-- Elementary row-operation matrix: identity plus column `k` filled with
`v`. -/
def elimMatrix (n : ℕ) (v : Fin n → Scalar) (k : Fin n) :
    Matrix (Fin n) (Fin n) Scalar :=
  1 + Matrix.of (fun i j => v i * (if j = k then 1 else 0))

theorem elimMatrix_mul (n : ℕ) (v : Fin n → Scalar) (k : Fin n)
    (G : Matrix (Fin n) (Fin n) Scalar) :
    elimMatrix n v k * G = Matrix.of (fun i j => G i j + v i * G k j) := by
  unfold elimMatrix
  rw [Matrix.add_mul, Matrix.one_mul]
  ext i j
  rw [Matrix.add_apply, Matrix.mul_apply]
  show G i j + (∑ t : Fin n, (v i * if t = k then 1 else 0) * G t j) = G i j + v i * G k j
  congr 1
  rw [Finset.sum_eq_single k]
  · rw [if_pos rfl, mul_one]
  · intro b _ hb
    rw [if_neg hb, mul_zero, zero_mul]
  · intro hk
    exact absurd (Finset.mem_univ k) hk

theorem det_elimMatrix (n : ℕ) (v : Fin n → Scalar) (k : Fin n)
    (hv : ∀ i, ¬ k < i → v i = 0) :
    (elimMatrix n v k).det = 1 := by
  have htri : (elimMatrix n v k).BlockTriangular OrderDual.toDual := by
    intro i j hij
    have hij' : i < j := hij
    unfold elimMatrix
    rw [Matrix.add_apply, Matrix.one_apply, if_neg (ne_of_lt hij')]
    show 0 + v i * (if j = k then 1 else 0) = 0
    by_cases hjk : j = k
    · rw [if_pos hjk, mul_one, zero_add]
      exact hv i (by rw [← hjk]; exact fun hlt => lt_asymm hij' hlt)
    · rw [if_neg hjk, mul_zero, add_zero]
  rw [Matrix.det_of_lowerTriangular _ htri]
  have hdiag : ∀ i : Fin n, elimMatrix n v k i i = 1 := by
    intro i
    unfold elimMatrix
    rw [Matrix.add_apply, Matrix.one_apply, if_pos rfl]
    show 1 + v i * (if i = k then 1 else 0) = 1
    by_cases hik : i = k
    · rw [if_pos hik, mul_one, hv i (by rw [hik]; exact lt_irrefl k)]
      ring
    · rw [if_neg hik, mul_zero, add_zero]
  rw [Finset.prod_congr rfl (fun i _ => hdiag i)]
  exact Finset.prod_const_one

/-- One ghost elimination pass at pivot `(k,k)` with pivot value `pv`:
rows below `k` get `row_i - (G i k / pv) • row_k`. -/
def ghostElim {n : ℕ} (G : Matrix (Fin n) (Fin n) Scalar) (k : Fin n)
    (pv : Scalar) : Matrix (Fin n) (Fin n) Scalar :=
  Matrix.of fun i j => if k < i then G i j - G i k / pv * G k j else G i j

theorem ghostElim_eq_mul {n : ℕ} (G : Matrix (Fin n) (Fin n) Scalar)
    (k : Fin n) (pv : Scalar) :
    ghostElim G k pv =
      elimMatrix n (fun i => if k < i then -(G i k / pv) else 0) k * G := by
  rw [elimMatrix_mul]
  ext i j
  show (if k < i then G i j - G i k / pv * G k j else G i j) =
    G i j + (if k < i then -(G i k / pv) else 0) * G k j
  by_cases hki : k < i
  · rw [if_pos hki, if_pos hki]
    ring
  · rw [if_neg hki, if_neg hki]
    ring

theorem det_ghostElim {n : ℕ} (G : Matrix (Fin n) (Fin n) Scalar)
    (k : Fin n) (pv : Scalar) : (ghostElim G k pv).det = G.det := by
  rw [ghostElim_eq_mul, Matrix.det_mul,
    det_elimMatrix n _ k (fun i hi => if_neg hi), one_mul]

theorem det_swap_submatrix {n : ℕ} (G : Matrix (Fin n) (Fin n) Scalar)
    (a b : Fin n) (hab : a ≠ b) :
    (G.submatrix (Equiv.swap a b) id).det = -G.det := by
  rw [Matrix.det_permute, Equiv.Perm.sign_swap hab]
  push_cast
  ring

/-- Invariant of the main loop after processing pivot columns `0..c-1`:
the live matrix `A` agrees with a ghost matrix `G` everywhere the
algorithm will still read (columns `≥ c`, and on/above the diagonal),
`G` is exactly eliminated (zero) below the diagonal in columns `< c`,
row operations have kept `sign • det G` equal to the determinant of the
original matrix, and the `det` accumulator is the product of the pivots
placed on the diagonal so far. -/
def loopInv (m : Mat) (c : ℕ) (A : Mat) (det : Scalar) (sign : ℤ) : Prop :=
  A.size = m.size ∧ A.data.length = m.data.length ∧
  ∃ G : Matrix (Fin m.size) (Fin m.size) Scalar,
    (∀ i j : Fin m.size, (c ≤ (j : ℕ) ∨ (i : ℕ) ≤ (j : ℕ)) → A.get i j = G i j) ∧
    (∀ i j : Fin m.size, (j : ℕ) < c → (j : ℕ) < (i : ℕ) → G i j = 0) ∧
    G.det = (sign : Scalar) * detN m.size m ∧
    det = ∏ t ∈ Finset.univ.filter (fun t : Fin m.size => (t : ℕ) < c), G t t ∧
    (sign = 1 ∨ sign = -1)

theorem loopInv_swap (m : Mat) (hwf : m.wf) (c : ℕ) (hc : c < m.size)
    (A : Mat) (det : Scalar) (sign : ℤ) (hinv : loopInv m c A det sign) :
    loopInv m c (stepM1 A c) det (stepSign A c sign) := by
  obtain ⟨hsz, hlen, G, hagree, hzero, hdetG, hprod, hpm⟩ := hinv
  have hAwf : A.wf := by
    unfold Mat.wf
    rw [hlen, hsz]
    exact hwf
  have hcA : c < A.size := by rw [hsz]; exact hc
  obtain ⟨hprl, hpru, _, _, _⟩ := findPivot_spec A c hcA
  set pr := (findPivot A c).1 with hprdef
  have hprm : pr < m.size := by rw [← hsz]; exact hpru
  by_cases hpc : pr ≠ c
  · -- a genuine swap of rows c and pr
    have hm1 : stepM1 A c = A.swapRows c pr := by
      unfold stepM1
      rw [hprdef, if_pos hpc]
    have hsgn : stepSign A c sign = -sign := by
      unfold stepSign
      rw [← hprdef, if_pos hpc]
    set kF : Fin m.size := ⟨c, hc⟩ with hkF
    set prF : Fin m.size := ⟨pr, hprm⟩ with hprF
    have hkpr : kF ≠ prF := fun hco => hpc (congrArg Fin.val hco).symm
    have hswap_get : ∀ i j : Fin m.size,
        (stepM1 A c).get i j =
          if (i : ℕ) = c then A.get pr j
          else if (i : ℕ) = pr then A.get c j
          else A.get i j := by
      intro i j
      rw [hm1]
      exact Mat.get_swapRows A hAwf hcA (by rw [hsz]; exact hprm) i j
        (by rw [hsz]; exact j.isLt)
    refine ⟨by rw [hm1, Mat.size_swapRows]; exact hsz,
      by rw [hm1, Mat.length_swapRows]; exact hlen,
      G.submatrix (Equiv.swap kF prF) id, ?_, ?_, ?_, ?_, ?_⟩
    · -- agreement after the swap
      intro i j hj
      rw [hswap_get i j]
      show _ = G (Equiv.swap kF prF i) j
      by_cases hic : (i : ℕ) = c
      · have hiF : i = kF := Fin.ext hic
        rw [if_pos hic, hiF, Equiv.swap_apply_left]
        have hcj : c ≤ (j : ℕ) := by
          rcases hj with h | h
          · exact h
          · rw [hic] at h
            exact h
        exact hagree prF j (Or.inl hcj)
      · by_cases hip : (i : ℕ) = pr
        · have hiF : i = prF := Fin.ext hip
          rw [if_neg hic, if_pos hip, hiF, Equiv.swap_apply_right]
          have hcj : c ≤ (j : ℕ) := by
            rcases hj with h | h
            · exact h
            · rw [hip] at h
              omega
          exact hagree kF j (Or.inl hcj)
        · have hiF1 : i ≠ kF := fun hco => hic (congrArg Fin.val hco)
          have hiF2 : i ≠ prF := fun hco => hip (congrArg Fin.val hco)
          rw [if_neg hic, if_neg hip, Equiv.swap_apply_of_ne_of_ne hiF1 hiF2]
          exact hagree i j hj
    · -- zeros below the diagonal in columns < c survive the swap
      intro i j hjc hji
      show G (Equiv.swap kF prF i) j = 0
      by_cases hic : i = kF
      · rw [hic, Equiv.swap_apply_left]
        exact hzero prF j hjc (by show (j:ℕ) < pr; omega)
      · by_cases hip : i = prF
        · rw [hip, Equiv.swap_apply_right]
          exact hzero kF j hjc (by show (j:ℕ) < c; omega)
        · rw [Equiv.swap_apply_of_ne_of_ne hic hip]
          exact hzero i j hjc hji
    · -- determinant relation with the flipped sign
      rw [det_swap_submatrix G kF prF hkpr, hdetG, hsgn]
      push_cast
      ring
    · -- the pivots already on the diagonal are in rows < c, untouched
      rw [hprod]
      refine Finset.prod_congr rfl ?_
      intro t ht
      have htc : (t : ℕ) < c := (Finset.mem_filter.mp ht).2
      show G t t = G (Equiv.swap kF prF t) t
      have h1 : t ≠ kF := fun hco => by
        rw [hco] at htc
        exact absurd htc (lt_irrefl c)
      have h2 : t ≠ prF := fun hco => by
        rw [hco] at htc
        have hv : ((prF : Fin m.size) : ℕ) = pr := rfl
        rw [hv] at htc
        omega
      rw [Equiv.swap_apply_of_ne_of_ne h1 h2]
    · rw [hsgn]
      rcases hpm with h | h
      · exact Or.inr (by rw [h])
      · exact Or.inl (by rw [h]; ring)
  · -- no swap: pr = c
    have hm1 : stepM1 A c = A := by
      unfold stepM1
      rw [← hprdef, if_neg hpc]
    have hsgn : stepSign A c sign = sign := by
      unfold stepSign
      rw [← hprdef, if_neg hpc]
    rw [hm1, hsgn]
    exact ⟨hsz, hlen, G, hagree, hzero, hdetG, hprod, hpm⟩

theorem loopInv_elim (m : Mat) (hwf : m.wf) (c : ℕ) (hc : c < m.size)
    (A1 : Mat) (det : Scalar) (sign1 : ℤ) (hinv : loopInv m c A1 det sign1)
    (hth : ¬ |A1.get c c| < epsilon) :
    loopInv m (c+1) (eliminate A1 c (A1.get c c)) (qmul det (A1.get c c)) sign1 := by
  obtain ⟨hsz, hlen, G, hagree, hzero, hdetG, hprod, hpm⟩ := hinv
  have hAwf : A1.wf := by
    unfold Mat.wf
    rw [hlen, hsz]
    exact hwf
  have hcA : c < A1.size := by rw [hsz]; exact hc
  set kF : Fin m.size := ⟨c, hc⟩ with hkF
  set pv := A1.get c c with hpvdef
  have hpvG : pv = G kF kF := hagree kF kF (Or.inl le_rfl)
  have heps : (0 : Scalar) < epsilon := by
    rw [epsilon_eq]
    norm_num
  have hpv0 : pv ≠ 0 := by
    intro h0
    rw [h0] at hth
    simp at hth
    exact absurd heps (by simpa using hth)
  refine ⟨by rw [eliminate_size]; exact hsz,
    by rw [eliminate_length]; exact hlen,
    ghostElim G kF pv, ?_, ?_, ?_, ?_, hpm⟩
  · -- agreement at level c+1
    intro i j hij
    rw [Mat.get_eliminate A1 pv hAwf hcA i j (by rw [hsz]; exact j.isLt)]
    show _ = (if kF < i then G i j - G i kF / pv * G kF j else G i j)
    by_cases hpi : c + 1 ≤ (i : ℕ)
    · have hiA : (i : ℕ) < A1.size := by rw [hsz]; exact i.isLt
      rw [if_pos ⟨hpi, hiA⟩]
      have hki : kF < i := by
        rw [Fin.lt_def]
        show c < (i : ℕ)
        omega
      by_cases hjc : (j : ℕ) = c
      · exfalso
        rcases hij with h | h
        · omega
        · omega
      · rw [if_neg hjc]
        have hjge : c + 1 ≤ (j : ℕ) := by
          rcases hij with h | h
          · exact h
          · omega
        rw [if_pos hjge, qsub_eq_sub, qmul_eq_mul, qdiv_eq_div]
        have h1 : A1.get i j = G i j := hagree i j (Or.inl (by omega))
        have h2 : A1.get (i : ℕ) c = G i kF := hagree i kF (Or.inl le_rfl)
        have h3 : A1.get c (j : ℕ) = G kF j := hagree kF j (Or.inl (by omega))
        rw [h1, h2, h3, if_pos hki]
    · rw [if_neg (by rintro ⟨h1, _⟩; exact hpi h1)]
      have hnk : ¬ kF < i := by
        rw [Fin.lt_def]
        show ¬ c < (i : ℕ)
        omega
      rw [if_neg hnk]
      apply hagree i j
      rcases hij with h | h
      · exact Or.inl (by omega)
      · exact Or.inr h
  · -- zeros at level c+1
    intro i j hjc1 hji
    show (if kF < i then G i j - G i kF / pv * G kF j else G i j) = 0
    by_cases hjc : (j : ℕ) = c
    · have hki : kF < i := by
        rw [Fin.lt_def]
        show c < (i : ℕ)
        omega
      rw [if_pos hki]
      have hjF : j = kF := Fin.ext hjc
      rw [hjF, ← hpvG, div_mul_cancel₀ _ hpv0]
      ring
    · have hjc' : (j : ℕ) < c := by omega
      by_cases hki : kF < i
      · rw [if_pos hki, hzero i j hjc' hji,
          hzero kF j hjc' (by show (j : ℕ) < c; omega)]
        ring
      · rw [if_neg hki]
        exact hzero i j hjc' hji
  · -- determinant preserved by the row operations
    rw [det_ghostElim, hdetG]
  · -- pivot product
    rw [qmul_eq_mul, hprod]
    have hset : Finset.univ.filter (fun t : Fin m.size => (t : ℕ) < c + 1) =
        insert kF (Finset.univ.filter (fun t : Fin m.size => (t : ℕ) < c)) := by
      ext t
      simp only [Finset.mem_filter, Finset.mem_univ, true_and, Finset.mem_insert]
      constructor
      · intro h
        by_cases htc : (t : ℕ) = c
        · exact Or.inl (Fin.ext htc)
        · exact Or.inr (by omega)
      · intro h
        rcases h with h | h
        · rw [h]
          show c < c + 1
          omega
        · omega
    have hnotmem : kF ∉ Finset.univ.filter (fun t : Fin m.size => (t : ℕ) < c) := by
      simp only [Finset.mem_filter, Finset.mem_univ, true_and]
      show ¬ c < c
      omega
    rw [hset, Finset.prod_insert hnotmem]
    have hG2kk : ghostElim G kF pv kF kF = pv := by
      show (if kF < kF then _ else G kF kF) = pv
      rw [if_neg (lt_irrefl kF), ← hpvG]
    have hG2tt : ∀ t ∈ Finset.univ.filter (fun t : Fin m.size => (t : ℕ) < c),
        G t t = ghostElim G kF pv t t := by
      intro t ht
      have htc : (t : ℕ) < c := (Finset.mem_filter.mp ht).2
      show G t t = (if kF < t then _ else G t t)
      rw [if_neg (by rw [Fin.lt_def]; show ¬ c < (t : ℕ); omega)]
    rw [hG2kk, Finset.prod_congr rfl hG2tt]
    ring

theorem loopInv_fold (m : Mat) (hwf : m.wf) : ∀ c : ℕ, c ≤ m.size →
    ∀ A piv det sign,
      (List.range c).foldl step (.running m (List.range m.size) 1 1) =
        .running A piv det sign →
      loopInv m c A det sign := by
  intro c
  induction c with
  | zero =>
    intro _ A piv det sign h
    injection h with hm hpiv hdet hsgn
    rw [← hm, ← hdet, ← hsgn]
    refine ⟨rfl, rfl, matN m.size m, fun i j _ => rfl, ?_, ?_, ?_, Or.inl rfl⟩
    · intro i j hj _
      omega
    · show (matN m.size m).det = ((1 : ℤ) : Scalar) * detN m.size m
      rw [Int.cast_one, one_mul]
      rfl
    · have hempty : Finset.univ.filter (fun t : Fin m.size => (t : ℕ) < 0) =
          (∅ : Finset (Fin m.size)) := by
        ext t
        simp
      rw [hempty, Finset.prod_empty]
  | succ c ih =>
    intro hc1 A piv det sign h
    rw [List.range_succ, List.foldl_append] at h
    simp only [List.foldl_cons, List.foldl_nil] at h
    cases hst : (List.range c).foldl step (.running m (List.range m.size) 1 1) with
    | done m' =>
      rw [hst, step_done] at h
      cases h
    | running A0 piv0 det0 sign0 =>
      rw [hst] at h
      have hinv0 := ih (by omega) A0 piv0 det0 sign0 hst
      rw [step_running] at h
      by_cases hth : |stepPV A0 c| < epsilon
      · rw [if_pos hth] at h
        cases h
      · rw [if_neg hth] at h
        injection h with hA hpiv2 hdet hsgn
        rw [← hA, ← hdet, ← hsgn]
        have hswap := loopInv_swap m hwf c (by omega) A0 det0 sign0 hinv0
        exact loopInv_elim m hwf c (by omega) (stepM1 A0 c) det0
          (stepSign A0 c sign0) hswap hth

/-- Full correctness of the elimination: whenever the main loop completes
without hitting the singularity threshold, `calculate_determinant`
returns exactly the mathematical determinant of the input matrix. -/
theorem detAlgo_correct (m : Mat) (hwf : m.wf) (hcom : completes m) :
    (calculateDeterminant m).1 = detN m.size m := by
  obtain ⟨A, piv, det, sign, hr⟩ := hcom
  by_cases h0 : m.size = 0
  · have hd : detN m.size m = 1 := by
      rw [h0]
      unfold detN
      rw [Matrix.det_isEmpty]
    unfold calculateDeterminant
    rw [if_pos h0, hd]
  · by_cases h1 : m.size = 1
    · have hd : detN m.size m = m.get 0 0 := by
        rw [h1]
        unfold detN matN
        rw [Matrix.det_fin_one]
        rfl
      unfold calculateDeterminant
      rw [if_neg h0, if_pos h1, hd]
    · obtain ⟨hsz, hlen, G, hagree, hzero, hdetG, hprod, hpm⟩ :=
        loopInv_fold m hwf m.size le_rfl A piv det sign hr
      have htri : G.BlockTriangular id := by
        intro i j hij
        exact hzero i j j.isLt hij
      have hdet_tri : G.det = ∏ i, G i i := Matrix.det_of_upperTriangular htri
      have hfull : Finset.univ.filter (fun t : Fin m.size => (t : ℕ) < m.size) =
          Finset.univ := by
        ext t
        simp [t.isLt]
      rw [hfull] at hprod
      unfold calculateDeterminant
      rw [if_neg h0, if_neg h1, hr]
      show qmul det (sign : Scalar) = detN m.size m
      rw [qmul_eq_mul, hprod, ← hdet_tri, hdetG]
      rcases hpm with h | h
      · rw [h]
        push_cast
        ring
      · rw [h]
        push_cast
        ring

theorem detN_swapRows (m : Mat) (hwf : m.wf) {i j : ℕ} (hi : i < m.size)
    (hj : j < m.size) (hij : i ≠ j) :
    detN m.size (m.swapRows i j) = -(detN m.size m) := by
  set iF : Fin m.size := ⟨i, hi⟩ with hiF
  set jF : Fin m.size := ⟨j, hj⟩ with hjF
  have hmat : matN m.size (m.swapRows i j) =
      (matN m.size m).submatrix (Equiv.swap iF jF) id := by
    ext p q
    show (m.swapRows i j).get p q = m.get (Equiv.swap iF jF p) q
    rw [Mat.get_swapRows m hwf hi hj p q q.isLt]
    by_cases hpi : (p : ℕ) = i
    · rw [if_pos hpi, show p = iF from Fin.ext hpi, Equiv.swap_apply_left]
    · by_cases hpj : (p : ℕ) = j
      · rw [if_neg hpi, if_pos hpj, show p = jF from Fin.ext hpj,
          Equiv.swap_apply_right]
      · rw [if_neg hpi, if_neg hpj,
          Equiv.swap_apply_of_ne_of_ne (fun h => hpi (congrArg Fin.val h))
            (fun h => hpj (congrArg Fin.val h))]
  unfold detN
  rw [hmat, det_swap_submatrix _ iF jF (fun h => hij (congrArg Fin.val h))]

theorem Mat.wf_swapRows (m : Mat) (hwf : m.wf) (i j : ℕ) :
    (m.swapRows i j).wf := by
  unfold Mat.wf
  rw [Mat.length_swapRows, Mat.size_swapRows]
  exact hwf

/-- A run whose every recorded pivot cleared the absolute threshold cannot
return zero: the result is a product of nonzero pivots, up to sign. -/
theorem calcDet_ne_zero_of_completes (m : Mat) (h : completes m) :
    (calculateDeterminant m).1 ≠ 0 := by
  rw [calcDet_eq_signed_product m h]
  obtain ⟨m', piv', det, sign, hr⟩ := h
  have hpv := (runFold_det_sign m m' piv' det sign hr).2.2.2
  have heps : (0 : Scalar) < epsilon := by
    rw [epsilon_eq]
    norm_num
  apply mul_ne_zero
  · apply List.prod_ne_zero
    intro hx
    obtain ⟨e, he, hxe⟩ := List.mem_map.mp hx
    have hb := hpv e he
    rw [hxe] at hb
    simp at hb
    exact absurd (lt_of_lt_of_le heps hb) (lt_irrefl 0)
  · exact pow_ne_zero _ (by norm_num)

/-! ## Claim C9: row swap negates the determinant -/

/-- C9 (amended): for distinct row indices, if the elimination completes
without hitting the singularity threshold on both the original matrix and
the swapped one, then swapping the two rows before calling the engine
negates the result. -/
theorem calcDet_swap_negates (m : Mat) (i j : ℕ) (hwf : m.wf)
    (hi : i < m.size) (hj : j < m.size) (hij : i ≠ j)
    (hcm : completes m) (hcs : completes (m.swapRows i j)) :
    (calculateDeterminant (m.swapRows i j)).1 = -(calculateDeterminant m).1 := by
  rw [detAlgo_correct _ (m.wf_swapRows hwf i j) hcs, detAlgo_correct m hwf hcm,
    Mat.size_swapRows]
  exact detN_swapRows m hwf hi hj hij

theorem calcDet_swap_negates_witness :
    (⟨2, [1, 2, 3, 4]⟩ : Mat).wf ∧ 0 < (⟨2, [1, 2, 3, 4]⟩ : Mat).size ∧
    1 < (⟨2, [1, 2, 3, 4]⟩ : Mat).size ∧ (0 : ℕ) ≠ 1 ∧
    completes ⟨2, [1, 2, 3, 4]⟩ ∧
    completes (Mat.swapRows ⟨2, [1, 2, 3, 4]⟩ 0 1) ∧
    (calculateDeterminant (Mat.swapRows ⟨2, [1, 2, 3, 4]⟩ 0 1)).1 =
      -(calculateDeterminant ⟨2, [1, 2, 3, 4]⟩).1 :=
  ⟨by decide, by decide, by decide, by decide, by decide, by decide,
    calcDet_swap_negates ⟨2, [1, 2, 3, 4]⟩ 0 1 (by decide) (by decide)
      (by decide) (by decide) (by decide) (by decide)⟩

/-- C9 counterexample: an exactly-representable 3x3 matrix on which the
run hits the `1e-15` threshold (returning `0.0`) while the run on the
row-swapped matrix completes with a nonzero result, because the Schur
complements after the tie-broken pivot choice differ.  Hence
`det(swap(M)) = -det(M)` fails as stated. -/
theorem calcDet_swap_negates_counterexample :
    (⟨3, [2, 1, 0,
          -2, Rat.divInt (7 - 10 ^ 16) (10 ^ 16), 0,
          2, Rat.divInt (10 ^ 16 + 5) (10 ^ 16), 1]⟩ : Mat).wf ∧
    (calculateDeterminant (⟨3, [2, 1, 0,
          -2, Rat.divInt (7 - 10 ^ 16) (10 ^ 16), 0,
          2, Rat.divInt (10 ^ 16 + 5) (10 ^ 16), 1]⟩ : Mat)).1 = 0 ∧
    (calculateDeterminant ((⟨3, [2, 1, 0,
          -2, Rat.divInt (7 - 10 ^ 16) (10 ^ 16), 0,
          2, Rat.divInt (10 ^ 16 + 5) (10 ^ 16), 1]⟩ : Mat).swapRows 0 1)).1 ≠
      -(calculateDeterminant (⟨3, [2, 1, 0,
          -2, Rat.divInt (7 - 10 ^ 16) (10 ^ 16), 0,
          2, Rat.divInt (10 ^ 16 + 5) (10 ^ 16), 1]⟩ : Mat)).1 := by
  refine ⟨by decide, by decide, by decide⟩

/-! ## Claim C1: the singularity threshold short-circuit -/

/-- C1 (amended): once a pivot below `1e-15` is encountered the loop state
becomes absorbing (`done`: no further elimination is performed) and, for
matrices of size `≥ 2`, the returned value is exactly `0.0`; moreover any
exactly singular matrix of size `≥ 2` returns exactly `0.0`.  (The `1x1`
case is excluded: it returns `matrix(0,0)` without a threshold check.) -/
theorem calcDet_threshold_zero :
    (∀ s k, step (RunState.done s) k = RunState.done s) ∧
    (∀ m : Mat, 2 ≤ m.size → ¬completes m → (calculateDeterminant m).1 = 0) ∧
    (∀ m : Mat, m.wf → 2 ≤ m.size → detN m.size m = 0 →
      (calculateDeterminant m).1 = 0) := by
  refine ⟨step_done, calcDet_zero_of_not_completes, ?_⟩
  intro m hwf h2 hdet0
  by_cases hcom : completes m
  · exact absurd (by rw [detAlgo_correct m hwf hcom]; exact hdet0)
      (calcDet_ne_zero_of_completes m hcom)
  · exact calcDet_zero_of_not_completes m h2 hcom

theorem calcDet_threshold_zero_witness :
    step (RunState.done ⟨2, [0, 0, 0, 0]⟩) 1 = RunState.done ⟨2, [0, 0, 0, 0]⟩ ∧
    (calculateDeterminant ⟨2, [0, 0, 0, 0]⟩).1 = 0 ∧
    (calculateDeterminant ⟨2, [1, 2, 2, 4]⟩).1 = 0 :=
  ⟨calcDet_threshold_zero.1 ⟨2, [0, 0, 0, 0]⟩ 1,
   calcDet_threshold_zero.2.1 ⟨2, [0, 0, 0, 0]⟩ (by decide) (by decide),
   calcDet_threshold_zero.2.2 ⟨2, [1, 2, 2, 4]⟩ (by decide) (by decide)
     (by
       unfold detN matN
       rw [Matrix.det_fin_two]
       norm_num [Matrix.of_apply, Mat.get, Mat.index, Fin.val_zero, Fin.val_one,
         List.getD_cons_zero, List.getD_cons_succ])⟩

/-- C1 counterexample: a `1x1` matrix whose single entry is below the
absolute threshold (`10^-20 < 10^-15`) is near-singular by the fixed
threshold, yet `calculate_determinant` returns the entry itself, not
`0.0` — the `n == 1` early return (line 88) performs no threshold check. -/
theorem calcDet_threshold_1x1_counterexample :
    |(⟨1, [Rat.divInt 1 (10 ^ 20)]⟩ : Mat).get 0 0| < epsilon ∧
    (calculateDeterminant ⟨1, [Rat.divInt 1 (10 ^ 20)]⟩).1 ≠ 0 := by
  refine ⟨by decide, by decide⟩

/-! ## Claim C5: construction zero-initializes -/

/-- C5 counterexample: no freshly constructed matrix has a nonzero
element — `std::make_unique<long double[]>(n*n)` (line 18) value-
initializes the buffer, so "the reference does not zero-initialize" is
false on the code. -/
theorem construct_not_uninitialized :
    ¬ ∃ n : ℕ, 0 < n ∧ ∃ i j : ℕ, i < n ∧ j < n ∧
      (Mat.construct n).get i j ≠ 0 := by
  rintro ⟨n, _, i, j, _, _, hne⟩
  exact hne (Mat.get_construct n i j)

/-- C5 (amended): `Matrix::Matrix(n)` produces a buffer of `n*n` scalars
all equal to zero (value-initialization), satisfying the length
invariant. -/
theorem construct_zero_initialized (n i j : ℕ) :
    (Mat.construct n).get i j = 0 ∧
    (Mat.construct n).data = List.replicate (n * n) 0 ∧
    (Mat.construct n).wf :=
  ⟨Mat.get_construct n i j, rfl, by
    unfold Mat.wf Mat.construct
    simp⟩

/-! ## The file-based loader (`MatrixReader::readFromFile`, lines 150-192)

Modelled on pre-tokenized input: the file is a list of lines, each line
the list of numbers on it.  The column count `size` is the number of
values on the first line (lines 158-167); the reader then re-reads from
the start (line 170), requiring `size` lines of at least `size` values
each (lines 174-189); extra values on a line are never examined. -/

/-- One read of `iss >> matrix(i, j)` (lines 184-187): the `j`-th value of
the line, or the "not enough columns" failure. -/
def fillRowF (i : ℕ) (row : List Scalar) : Except String Mat → ℕ → Except String Mat :=
  fun acc j =>
    match acc with
    | .error e => .error e
    | .ok mat =>
      match row[j]? with
      | some v => .ok (mat.set i j v)
      | none => .error "Invalid matrix format: not enough columns"

/-- Reading one row `i`: `iss >> matrix(i, j)` for `j = 0 .. size-1`
(lines 181-188). -/
def fillRow (m : Mat) (i : ℕ) (row : List Scalar) : Except String Mat :=
  (List.range m.size).foldl (fillRowF i row) (.ok m)

/-- One iteration of the row loop (lines 174-189): `getline` failing is
the "not enough rows" failure, otherwise the row is parsed. -/
def readF (lines : List (List Scalar)) : Except String Mat → ℕ → Except String Mat :=
  fun acc i =>
    match acc with
    | .error e => .error e
    | .ok mat =>
      match lines[i]? with
      | some row => fillRow mat i row
      | none => .error "Invalid matrix format: not enough rows"

/-- `MatrixReader::readFromFile` (lines 150-192). -/
def readFromFile (lines : List (List Scalar)) : Except String Mat :=
  let size := (lines.headD []).length
  (List.range size).foldl (readF lines) (.ok (Mat.construct size))

theorem except_foldl_error {α : Type} (f : Except String Mat → α → Except String Mat)
    (hf : ∀ e a, f (.error e) a = .error e) (l : List α) (e : String) :
    l.foldl f (.error e) = .error e :=
  foldl_invariant f (fun st => st = .error e)
    (fun b a hb => by rw [hb, hf]) l _ rfl

theorem fillRow_fold_ok (i : ℕ) (row : List Scalar) :
    ∀ (js : List ℕ) (mat : Mat), (∀ j ∈ js, j < row.length) →
      ∃ m', js.foldl (fillRowF i row) (.ok mat) = .ok m' := by
  intro js
  induction js with
  | nil => intro mat _; exact ⟨mat, rfl⟩
  | cons j rest ih =>
    intro mat hj
    have hjl : j < row.length := hj j (List.mem_cons_self j rest)
    obtain ⟨v, hv⟩ : ∃ v, row[j]? = some v := ⟨_, List.getElem?_eq_getElem hjl⟩
    have hstep : fillRowF i row (.ok mat) j = .ok (mat.set i j v) := by
      unfold fillRowF
      rw [hv]
    rw [List.foldl_cons, hstep]
    exact ih (mat.set i j _) (fun j' hj' => hj j' (List.mem_cons_of_mem j hj'))

theorem fillRow_fold_bound (i : ℕ) (row : List Scalar) :
    ∀ (js : List ℕ) (mat : Mat) (m' : Mat),
      js.foldl (fillRowF i row) (.ok mat) = .ok m' →
      ∀ j ∈ js, j < row.length := by
  intro js
  induction js with
  | nil =>
    intro mat m' _ j hj
    cases hj
  | cons j rest ih =>
    intro mat m' h j' hj'
    rw [List.foldl_cons] at h
    cases hrj : row[j]? with
    | none =>
      have hstep : fillRowF i row (.ok mat) j = .error "Invalid matrix format: not enough columns" := by
        unfold fillRowF
        rw [hrj]
      rw [hstep, except_foldl_error (fillRowF i row) (fun e a => rfl)] at h
      cases h
    | some v =>
      have hstep : fillRowF i row (.ok mat) j = .ok (mat.set i j v) := by
        unfold fillRowF
        rw [hrj]
      rw [hstep] at h
      rcases List.mem_cons.mp hj' with hj1 | hj1
      · rw [hj1]
        by_contra hge
        rw [List.getElem?_eq_none (by omega)] at hrj
        cases hrj
      · exact ih (mat.set i j v) m' h j' hj1

theorem fillRow_preserve (i : ℕ) (row : List Scalar) (js : List ℕ) (mat : Mat) :
    ∀ m', js.foldl (fillRowF i row) (.ok mat) = .ok m' →
      m'.size = mat.size ∧ m'.data.length = mat.data.length := by
  refine foldl_invariant (fillRowF i row)
    (fun st => ∀ m', st = .ok m' → m'.size = mat.size ∧ m'.data.length = mat.data.length)
    ?_ js (.ok mat) ?_
  · intro b a hb
    cases b with
    | error e => intro m' h; cases h
    | ok mb =>
      intro m' h
      unfold fillRowF at h
      cases hrj : row[a]? with
      | none =>
        rw [hrj] at h
        cases h
      | some v =>
        rw [hrj] at h
        injection h with h1
        rw [← h1, Mat.size_set, Mat.length_set]
        exact hb mb rfl
  · intro m' h
    injection h with h1
    rw [← h1]
    exact ⟨rfl, rfl⟩

theorem read_fold_ok (lines : List (List Scalar)) (L : ℕ) :
    ∀ (is : List ℕ) (mat : Mat), mat.size = L →
      (∀ i ∈ is, ∃ row, lines[i]? = some row ∧ L ≤ row.length) →
      ∃ m', is.foldl (readF lines) (.ok mat) = .ok m' := by
  intro is
  induction is with
  | nil => intro mat _ _; exact ⟨mat, rfl⟩
  | cons i rest ih =>
    intro mat hsz h
    obtain ⟨row, hrow, hlen⟩ := h i (List.mem_cons_self i rest)
    have hall : ∀ j ∈ List.range mat.size, j < row.length := by
      intro j hj
      have := List.mem_range.mp hj
      omega
    obtain ⟨m1, hm1⟩ := fillRow_fold_ok i row (List.range mat.size) mat hall
    obtain ⟨hs1, _⟩ := fillRow_preserve i row (List.range mat.size) mat m1 hm1
    have hstep : readF lines (.ok mat) i = .ok m1 := by
      unfold readF
      rw [hrow]
      exact hm1
    rw [List.foldl_cons, hstep]
    exact ih m1 (hs1.trans hsz) (fun i' hi' => h i' (List.mem_cons_of_mem i hi'))

theorem read_fold_bound (lines : List (List Scalar)) (L : ℕ) :
    ∀ (is : List ℕ) (mat : Mat) (m' : Mat), mat.size = L →
      is.foldl (readF lines) (.ok mat) = .ok m' →
      ∀ i ∈ is, ∃ row, lines[i]? = some row ∧ L ≤ row.length := by
  intro is
  induction is with
  | nil =>
    intro mat m' _ _ i hi
    cases hi
  | cons i rest ih =>
    intro mat m' hsz h i' hi'
    rw [List.foldl_cons] at h
    cases hrow : lines[i]? with
    | none =>
      have hstep : readF lines (.ok mat) i = .error "Invalid matrix format: not enough rows" := by
        unfold readF
        rw [hrow]
      rw [hstep, except_foldl_error (readF lines) (fun e a => rfl)] at h
      cases h
    | some row =>
      have hstep : readF lines (.ok mat) i = fillRow mat i row := by
        unfold readF
        rw [hrow]
      rw [hstep] at h
      cases hfr : fillRow mat i row with
      | error e =>
        rw [hfr, except_foldl_error (readF lines) (fun e a => rfl)] at h
        cases h
      | ok m1 =>
        rw [hfr] at h
        rcases List.mem_cons.mp hi' with hi1 | hi1
        · refine ⟨row, by rw [hi1]; exact hrow, ?_⟩
          rcases Nat.eq_zero_or_pos L with h0 | h0
          · omega
          · have hb := fillRow_fold_bound i row (List.range mat.size) mat m1 hfr
              (mat.size - 1) (List.mem_range.mpr (by omega))
            omega
        · obtain ⟨hs1, _⟩ := fillRow_preserve i row (List.range mat.size) mat m1 hfr
          exact ih m1 m' (hs1.trans hsz) h i' hi1

/-- C6 (amended): the file loader succeeds exactly when each of the first
`size` lines exists and has at least `size` values (`size` = number of
values on the first line); otherwise — a missing row, or a row with too
few values — it fails with a format error and returns no matrix.  Rows
with too many values are accepted: the extra values are silently
ignored, not rejected. -/
theorem readFromFile_spec (lines : List (List Scalar)) :
    ((∃ m, readFromFile lines = .ok m) ↔
      ∀ i, i < (lines.headD []).length →
        ∃ row, lines[i]? = some row ∧ (lines.headD []).length ≤ row.length) ∧
    ((¬ ∀ i, i < (lines.headD []).length →
        ∃ row, lines[i]? = some row ∧ (lines.headD []).length ≤ row.length) →
      ∃ e, readFromFile lines = .error e) := by
  have hiff : (∃ m, readFromFile lines = .ok m) ↔
      ∀ i, i < (lines.headD []).length →
        ∃ row, lines[i]? = some row ∧ (lines.headD []).length ≤ row.length := by
    constructor
    · rintro ⟨m, hm⟩
      intro i hi
      exact read_fold_bound lines (lines.headD []).length
        (List.range (lines.headD []).length) (Mat.construct (lines.headD []).length)
        m rfl hm i (List.mem_range.mpr hi)
    · intro h
      exact read_fold_ok lines (lines.headD []).length
        (List.range (lines.headD []).length) (Mat.construct (lines.headD []).length)
        rfl (fun i hi => h i (List.mem_range.mp hi))
  refine ⟨hiff, ?_⟩
  intro hnot
  cases hrf : readFromFile lines with
  | ok m => exact absurd (hiff.mp ⟨m, hrf⟩) hnot
  | error e => exact ⟨e, rfl⟩

theorem readFromFile_spec_witness :
    (¬ ∀ i, i < (([[(1 : Scalar), 2]] : List (List Scalar)).headD []).length →
      ∃ row, ([[(1 : Scalar), 2]] : List (List Scalar))[i]? = some row ∧
        (([[(1 : Scalar), 2]] : List (List Scalar)).headD []).length ≤ row.length) ∧
    (∃ e, readFromFile [[(1 : Scalar), 2]] = .error e) := by
  constructor
  · intro hall
    obtain ⟨row, hrow, _⟩ := hall 1 (by decide)
    cases hrow
  · refine (readFromFile_spec [[(1 : Scalar), 2]]).2 ?_
    intro hall
    obtain ⟨row, hrow, _⟩ := hall 1 (by decide)
    cases hrow

/-- C6 counterexample: a second row with three values when the first row
fixed the column count at two is *accepted* (the extra `5` is ignored),
so "must fail with a format error if any row has too many values" is
false on the code. -/
theorem readFromFile_counterexample :
    ([(3 : Scalar), 4, 5] : List Scalar).length > 2 ∧
    readFromFile [[(1 : Scalar), 2], [3, 4, 5]] = .ok ⟨2, [1, 2, 3, 4]⟩ := by
  refine ⟨by decide, by rfl⟩

/-! ## Ownership model: heap of buffers (copy vs. move semantics)

`unique_ptr` ownership is modelled with an explicit heap of numbered
buffers.  A `Matrix` object is its `size` field plus the id of its owned
buffer; `none` models a null `unique_ptr` (the state after being moved
from). -/

structure Heap where
  next : ℕ
  mem : ℕ → List Scalar

structure MRef where
  size : ℕ
  buf : Option ℕ
deriving DecidableEq, Repr

/-- Allocate a fresh buffer. -/
def Heap.alloc (h : Heap) (contents : List Scalar) : Heap × ℕ :=
  (⟨h.next + 1, fun b => if b = h.next then contents else h.mem b⟩, h.next)

/-- Object invariant: a live buffer is allocated and has length
`size * size` (`data.length == size * size`); a moved-from object is the
valid empty state `size == 0`. -/
def MRef.wf (h : Heap) (r : MRef) : Prop :=
  match r.buf with
  | some b => b < h.next ∧ (h.mem b).length = r.size * r.size
  | none => r.size = 0

def MRef.contents (h : Heap) (r : MRef) : List Scalar :=
  match r.buf with
  | some b => h.mem b
  | none => []

/-- `Matrix::Matrix(size_t n)` (line 18): fresh zeroed buffer. -/
def constructRef (h : Heap) (n : ℕ) : Heap × MRef :=
  ((h.alloc (List.replicate (n * n) 0)).1, ⟨n, some (h.alloc (List.replicate (n * n) 0)).2⟩)

/-- Copy constructor (lines 22-25): fresh allocation plus `std::copy` of
exactly `size*size` elements from the source buffer; `Matrix::copy`
(lines 78-81) is `return Matrix(*this)`, i.e. the same operation. -/
def copyCtorRef (h : Heap) (r : MRef) : Heap × MRef :=
  ((h.alloc ((r.contents h).take (r.size * r.size))).1,
   ⟨r.size, some (h.alloc ((r.contents h).take (r.size * r.size))).2⟩)

/-- Move constructor (lines 27-30): steal the buffer; the source is left
with a null pointer and `size = 0`. -/
def moveCtorRef (r : MRef) : MRef × MRef :=
  (⟨r.size, r.buf⟩, ⟨0, none⟩)

/-- Copy assignment (lines 32-41), for distinct objects (self-assignment
is guarded by `this != &other` and is a no-op): fresh buffer plus copy. -/
def copyAssignRef (h : Heap) (_dst src : MRef) : Heap × MRef :=
  ((h.alloc ((src.contents h).take (src.size * src.size))).1,
   ⟨src.size, some (h.alloc ((src.contents h).take (src.size * src.size))).2⟩)

/-- Move assignment (lines 43-52), for distinct objects: transfer the
buffer; the source is left with a null pointer and `size = 0`. -/
def moveAssignRef (_dst src : MRef) : MRef × MRef :=
  (⟨src.size, src.buf⟩, ⟨0, none⟩)

/-- `Matrix::swapRows` through a reference: in-place update of the owned
buffer only. -/
def swapRowsRef (h : Heap) (r : MRef) (i j : ℕ) : Heap :=
  match r.buf with
  | some b => ⟨h.next,
      fun x => if x = b then (Mat.swapRows ⟨r.size, h.mem b⟩ i j).data else h.mem x⟩
  | none => h

/-- `DeterminantCalculator::calculateDeterminant(Matrix&)` through a
reference: runs the engine on the owned buffer, writing the eliminated
matrix back in place, and returns the scalar. -/
def calcDetRef (h : Heap) (r : MRef) : Scalar × Heap :=
  match r.buf with
  | some b =>
    ((calculateDeterminant ⟨r.size, h.mem b⟩).1,
     ⟨h.next, fun x => if x = b then (calculateDeterminant ⟨r.size, h.mem b⟩).2.data
              else h.mem x⟩)
  | none => ((calculateDeterminant ⟨r.size, []⟩).1, h)

theorem MRef.wf_some {h : Heap} {r : MRef} {b : ℕ} (hbuf : r.buf = some b) :
    r.wf h ↔ (b < h.next ∧ (h.mem b).length = r.size * r.size) := by
  unfold MRef.wf
  rw [hbuf]

theorem MRef.wf_none {h : Heap} {r : MRef} (hbuf : r.buf = none) :
    r.wf h ↔ r.size = 0 := by
  unfold MRef.wf
  rw [hbuf]

theorem MRef.contents_some {h : Heap} {r : MRef} {b : ℕ} (hbuf : r.buf = some b) :
    r.contents h = h.mem b := by
  unfold MRef.contents
  rw [hbuf]

theorem MRef.contents_none {h : Heap} {r : MRef} (hbuf : r.buf = none) :
    r.contents h = [] := by
  unfold MRef.contents
  rw [hbuf]

theorem take_contents_length (h : Heap) (r : MRef) (hwf : r.wf h) :
    ((r.contents h).take (r.size * r.size)).length = r.size * r.size := by
  cases hbuf : r.buf with
  | some b =>
    obtain ⟨_, hlen⟩ := (MRef.wf_some hbuf).mp hwf
    rw [MRef.contents_some hbuf, List.length_take, hlen]
    exact Nat.min_self _
  | none =>
    have h0 := (MRef.wf_none hbuf).mp hwf
    rw [MRef.contents_none hbuf, h0]
    rfl

/-- C8: every modelled `Matrix` operation preserves the buffer-length
invariant `data.length == size * size`, and moving (construction or
assignment) leaves the source in the valid empty state `size == 0` with
a null buffer — never dangling or partially valid. -/
theorem matrix_ops_preserve_invariant :
    (∀ (h : Heap) (n : ℕ), ((constructRef h n).2).wf (constructRef h n).1) ∧
    (∀ (h : Heap) (r : MRef), r.wf h →
      ((copyCtorRef h r).2).wf (copyCtorRef h r).1) ∧
    (∀ (h : Heap) (r : MRef), r.wf h → ((moveCtorRef r).1).wf h ∧
      (moveCtorRef r).2 = ⟨0, none⟩ ∧ ((moveCtorRef r).2).wf h) ∧
    (∀ (h : Heap) (dst src : MRef), src.wf h →
      ((copyAssignRef h dst src).2).wf (copyAssignRef h dst src).1) ∧
    (∀ (dst src : MRef) (h : Heap), src.wf h → ((moveAssignRef dst src).1).wf h ∧
      (moveAssignRef dst src).2 = ⟨0, none⟩ ∧ ((moveAssignRef dst src).2).wf h) ∧
    (∀ (h : Heap) (r : MRef) (i j : ℕ), r.wf h → r.wf (swapRowsRef h r i j)) ∧
    (∀ (h : Heap) (r : MRef), r.wf h → r.wf (calcDetRef h r).2) := by
  refine ⟨?_, ?_, ?_, ?_, ?_, ?_, ?_⟩
  · intro h n
    rw [MRef.wf_some (show ((constructRef h n).2).buf = some h.next from rfl)]
    constructor
    · show h.next < h.next + 1
      omega
    · show (if h.next = h.next then List.replicate (n * n) 0 else h.mem h.next).length = n * n
      rw [if_pos rfl, List.length_replicate]
  · intro h r hwf
    rw [MRef.wf_some (show ((copyCtorRef h r).2).buf = some h.next from rfl)]
    constructor
    · show h.next < h.next + 1
      omega
    · show (if h.next = h.next then (r.contents h).take (r.size * r.size)
            else h.mem h.next).length = r.size * r.size
      rw [if_pos rfl]
      exact take_contents_length h r hwf
  · intro h r hwf
    refine ⟨?_, rfl, ?_⟩
    · cases hbuf : r.buf with
      | some b =>
        rw [MRef.wf_some (show ((moveCtorRef r).1).buf = some b from by
          show r.buf = some b; exact hbuf)]
        exact (MRef.wf_some hbuf).mp hwf
      | none =>
        rw [MRef.wf_none (show ((moveCtorRef r).1).buf = none from by
          show r.buf = none; exact hbuf)]
        exact (MRef.wf_none hbuf).mp hwf
    · rw [MRef.wf_none rfl]
      rfl
  · intro h dst src hwf
    rw [MRef.wf_some (show ((copyAssignRef h dst src).2).buf = some h.next from rfl)]
    constructor
    · show h.next < h.next + 1
      omega
    · show (if h.next = h.next then (src.contents h).take (src.size * src.size)
            else h.mem h.next).length = src.size * src.size
      rw [if_pos rfl]
      exact take_contents_length h src hwf
  · intro dst src h hwf
    refine ⟨?_, rfl, ?_⟩
    · cases hbuf : src.buf with
      | some b =>
        rw [MRef.wf_some (show ((moveAssignRef dst src).1).buf = some b from by
          show src.buf = some b; exact hbuf)]
        exact (MRef.wf_some hbuf).mp hwf
      | none =>
        rw [MRef.wf_none (show ((moveAssignRef dst src).1).buf = none from by
          show src.buf = none; exact hbuf)]
        exact (MRef.wf_none hbuf).mp hwf
    · rw [MRef.wf_none rfl]
      rfl
  · intro h r i j hwf
    cases hbuf : r.buf with
    | some b =>
      obtain ⟨hb, hlen⟩ := (MRef.wf_some hbuf).mp hwf
      have hsw : swapRowsRef h r i j = ⟨h.next,
          fun x => if x = b then (Mat.swapRows ⟨r.size, h.mem b⟩ i j).data
                   else h.mem x⟩ := by
        unfold swapRowsRef
        rw [hbuf]
      rw [hsw, MRef.wf_some hbuf]
      refine ⟨hb, ?_⟩
      show (if b = b then (Mat.swapRows ⟨r.size, h.mem b⟩ i j).data else h.mem b).length = _
      rw [if_pos rfl, Mat.length_swapRows]
      exact hlen
    | none =>
      have hsw : swapRowsRef h r i j = h := by
        unfold swapRowsRef
        rw [hbuf]
      rw [hsw]
      exact hwf
  · intro h r hwf
    cases hbuf : r.buf with
    | some b =>
      obtain ⟨hb, hlen⟩ := (MRef.wf_some hbuf).mp hwf
      have hcd : (calcDetRef h r).2 = ⟨h.next,
          fun x => if x = b then (calculateDeterminant ⟨r.size, h.mem b⟩).2.data
                   else h.mem x⟩ := by
        unfold calcDetRef
        rw [hbuf]
      rw [hcd, MRef.wf_some hbuf]
      refine ⟨hb, ?_⟩
      show (if b = b then (calculateDeterminant ⟨r.size, h.mem b⟩).2.data
            else h.mem b).length = _
      rw [if_pos rfl, (calculateDeterminant_mat ⟨r.size, h.mem b⟩).2]
      exact hlen
    | none =>
      have hcd : (calcDetRef h r).2 = h := by
        unfold calcDetRef
        rw [hbuf]
      rw [hcd]
      exact hwf

theorem matrix_ops_preserve_invariant_witness :
    ((constructRef ⟨0, fun _ => []⟩ 2).2).wf (constructRef ⟨0, fun _ => []⟩ 2).1 ∧
    ((copyCtorRef ⟨1, fun b => if b = 0 then [5] else []⟩ ⟨1, some 0⟩).2).wf
      (copyCtorRef ⟨1, fun b => if b = 0 then [5] else []⟩ ⟨1, some 0⟩).1 ∧
    (moveCtorRef ⟨1, some 0⟩).2 = ⟨0, none⟩ ∧
    MRef.wf (calcDetRef ⟨1, fun b => if b = 0 then [5] else []⟩ ⟨1, some 0⟩).2
      ⟨1, some 0⟩ := by
  have hwf0 : MRef.wf ⟨1, fun b => if b = 0 then [5] else []⟩ ⟨1, some 0⟩ :=
    (MRef.wf_some (show (⟨1, some 0⟩ : MRef).buf = some 0 from rfl)).mpr
      ⟨by decide, by decide⟩
  exact ⟨matrix_ops_preserve_invariant.1 ⟨0, fun _ => []⟩ 2,
    matrix_ops_preserve_invariant.2.1 _ _ hwf0,
    (matrix_ops_preserve_invariant.2.2.1 _ _ hwf0).2.1,
    matrix_ops_preserve_invariant.2.2.2.2.2.2 _ _ hwf0⟩

/-- C7: duplicating a matrix (copy constructor / `copy()`) and running
`calculate_determinant` on the duplicate: the copy owns a fresh buffer
distinct from the source's (no aliasing), the elimination writes land on
the copy's buffer only — the original buffer is bit-for-bit unchanged —
and the duplicate's buffer afterwards holds exactly the eliminated
(LU-overwritten) matrix the engine produces. -/
theorem copy_run_preserves_original (h : Heap) (r : MRef) (b : ℕ)
    (hb : r.buf = some b) (hwf : r.wf h) :
    ((copyCtorRef h r).2).size = r.size ∧
    ((copyCtorRef h r).2).buf = some h.next ∧
    b ≠ h.next ∧
    ((calcDetRef (copyCtorRef h r).1 (copyCtorRef h r).2).2).mem b = h.mem b ∧
    ((calcDetRef (copyCtorRef h r).1 (copyCtorRef h r).2).2).mem h.next =
      (calculateDeterminant ⟨r.size, h.mem b⟩).2.data ∧
    (calcDetRef (copyCtorRef h r).1 (copyCtorRef h r).2).1 =
      (calculateDeterminant ⟨r.size, h.mem b⟩).1 := by
  obtain ⟨hblt, hlen⟩ := (MRef.wf_some hb).mp hwf
  have hbne : b ≠ h.next := by omega
  have htake : (h.mem b).take (r.size * r.size) = h.mem b :=
    List.take_of_length_le (le_of_eq hlen)
  have hmem1 : ∀ x, (copyCtorRef h r).1.mem x =
      if x = h.next then h.mem b else h.mem x := by
    intro x
    show (if x = h.next then (r.contents h).take (r.size * r.size) else h.mem x) = _
    rw [MRef.contents_some hb, htake]
  have hcd : calcDetRef (copyCtorRef h r).1 (copyCtorRef h r).2 =
      ((calculateDeterminant ⟨r.size, (copyCtorRef h r).1.mem h.next⟩).1,
       ⟨(copyCtorRef h r).1.next,
        fun x => if x = h.next then
          (calculateDeterminant ⟨r.size, (copyCtorRef h r).1.mem h.next⟩).2.data
        else (copyCtorRef h r).1.mem x⟩) := rfl
  have hmm : (copyCtorRef h r).1.mem h.next = h.mem b := by
    rw [hmem1 h.next, if_pos rfl]
  refine ⟨rfl, rfl, hbne, ?_, ?_, ?_⟩
  · rw [hcd]
    show (if b = h.next then _ else (copyCtorRef h r).1.mem b) = h.mem b
    rw [if_neg hbne, hmem1 b, if_neg hbne]
  · rw [hcd]
    show (if h.next = h.next then
      (calculateDeterminant ⟨r.size, (copyCtorRef h r).1.mem h.next⟩).2.data
      else _) = _
    rw [if_pos rfl, hmm]
  · rw [hcd, hmm]

theorem copy_run_preserves_original_witness :
    ((⟨1, some 0⟩ : MRef).buf = some 0) ∧
    MRef.wf ⟨1, fun b => if b = 0 then [5] else []⟩ ⟨1, some 0⟩ ∧
    ((calcDetRef (copyCtorRef ⟨1, fun b => if b = 0 then [5] else []⟩ ⟨1, some 0⟩).1
        (copyCtorRef ⟨1, fun b => if b = 0 then [5] else []⟩ ⟨1, some 0⟩).2).2).mem 0 =
      (⟨1, fun b => if b = 0 then [5] else []⟩ : Heap).mem 0 := by
  have hwf0 : MRef.wf ⟨1, fun b => if b = 0 then [5] else []⟩ ⟨1, some 0⟩ :=
    (MRef.wf_some (show (⟨1, some 0⟩ : MRef).buf = some 0 from rfl)).mpr
      ⟨by decide, by decide⟩
  exact ⟨rfl, hwf0,
    (copy_run_preserves_original ⟨1, fun b => if b = 0 then [5] else []⟩
      ⟨1, some 0⟩ 0 rfl hwf0).2.2.2.1⟩

end HWMX
